import Mathlib

/-!
# Checkpoint block (`blockchan/block/checkpoints/block.go`)

A shallow embedding of the `checkpointBlock` type and its methods, followed by
theorems about duplicate rejection, insertion-order independence, the
marshal / unmarshal round trip, the one-shot build and the key-list invariants.

Modelling conventions
* `*big.Int` arguments are non-nil and are integers (`Int`); `common.Hash` is a
  32-byte word, i.e. a number below `2 ^ 256`.
* Go strings are Lean strings; Go compares strings byte-wise, which on UTF-8
  text is the lexicographic order of the code points (`strLt`).
* `map[string]common.Hash` is a finite map (`Finmap`), so two maps with the
  same bindings are equal.
* The package `merkle` is a parameter (`Merkle`).  The methods take the codec as
  a parameter (`JSON`); `encodingJSON` is `encoding/json` of Go at the type
  `map[string]common.Hash`, on texts that are valid UTF-8.
* A method that mutates the receiver returns the new block next to its Go
  results.  `none` as the result of `Build` is the call that never returns.
-/

namespace checkpoints

/-! ## Library functions used by the block -/

/-- A `common.Hash`: 32 bytes, read as a big-endian number. -/
abbrev common.Hash := Fin (2 ^ 256)

/-- The entry mapping `map[string]common.Hash`. -/
abbrev Entries := Finmap (fun _ : String => common.Hash)

/-- The function `common.BigToHash`: the big-endian bytes of the absolute
value, cropped from the left to 32 bytes. -/
def common.BigToHash (number : Int) : common.Hash :=
  ⟨number.natAbs % 2 ^ 256, Nat.mod_lt _ (Nat.pos_pow_of_pos 256 (by decide))⟩

/-- The method `Hash.Big`: the 32 bytes read as an unsigned integer. -/
def common.Hash.Big (h : common.Hash) : Int := (h.val : Int)

/-- The method `(*big.Int).String`: the decimal rendering, with a leading
minus sign for a negative number. -/
def bigString (x : Int) : String := toString x

/-- The value of a decimal digit, if the character is one. -/
def digitVal (c : Char) : Option Nat :=
  if 48 ≤ c.toNat ∧ c.toNat ≤ 57 then some (c.toNat - 48) else none

/-- Reads the digits after `acc` has been read; fails at the first character
that is not a decimal digit. -/
def scanDigits (acc : Nat) : List Char → Option Nat
  | [] => some acc
  | c :: cs =>
    match digitVal c with
    | none => none
    | some d => scanDigits (acc * 10 + d) cs

/-- A non-empty run of decimal digits. -/
def scanNat : List Char → Option Nat
  | [] => none
  | c :: cs => scanDigits 0 (c :: cs)

/-- The call `new(big.Int).SetString(s, 10)`: an optional sign followed by at
least one decimal digit, and nothing else. -/
def SetString (s : String) : Option Int :=
  match s.data with
  | '-' :: cs => (scanNat cs).map (fun n => -(n : Int))
  | '+' :: cs => (scanNat cs).map (fun n => (n : Int))
  | cs => (scanNat cs).map (fun n => (n : Int))

/-- Go's `<` on strings, on the character lists. -/
def strLt : List Char → List Char → Bool
  | _, [] => false
  | [], _ :: _ => true
  | a :: as, b :: bs =>
    if a.toNat < b.toNat then true
    else if b.toNat < a.toNat then false
    else strLt as bs

/-- Go's `<=` on strings: `a <= b` is `!(b < a)`. -/
def StrLe (a b : String) : Prop := strLt b.data a.data = false

instance StrLe.decidable : DecidableRel StrLe := fun a b =>
  inferInstanceAs (Decidable (strLt b.data a.data = false))

/-- The function `sort.Strings`.  The order is total and antisymmetric, so the
sorted rearrangement of a list is unique and every sorting algorithm returns
it (`sortStrings_unique`). -/
def sortStrings (xs : List String) : List String := xs.insertionSort StrLe

/-- The function `sort.StringsAreSorted`: no element is smaller than its
predecessor. -/
def StringsAreSorted : List String → Bool
  | [] => true
  | [_] => true
  | a :: b :: rest => !strLt b.data a.data && StringsAreSorted (b :: rest)

/-- The depth constant `merkle.Depth257`. -/
def Depth257 : Nat := 257

/-- The package `merkle`, of which the block uses the tree type, `NewTree`,
`Root` and `CreateProof` (the latter applied to the structure and the default
nodes of the tree). -/
structure Merkle where
  /-- The type `merkle.Tree`. -/
  Tree : Type
  /-- The constructor `merkle.NewTree(entries, depth)`. -/
  NewTree : Entries → Nat → Except String Tree
  /-- The method `Tree.Root`. -/
  Root : Tree → common.Hash
  /-- The function `merkle.CreateProof` on the structure of a tree. -/
  CreateProof : Int → Nat → Tree → List UInt8

/-- A codec for `map[string]common.Hash`: the two functions of `encoding/json`
that the block calls.  The codec of Go is `encodingJSON`. -/
structure JSON where
  /-- The function `json.Marshal`. -/
  Marshal : Entries → Except String String
  /-- The function `json.Unmarshal` into a `map[string]common.Hash`. -/
  Unmarshal : String → Except String Entries

/-- The codec reads back the map it has written. -/
def JSON.RoundTrips (J : JSON) (m : Entries) : Prop :=
  ∃ raw, J.Marshal m = .ok raw ∧ J.Unmarshal raw = .ok m

/-! ## The block -/

/-- The errors returned by the block. -/
inductive Error where
  /-- The text "checkpoint for uid %s already exist in the block". -/
  | duplicateCheckpoint (uid : String)
  /-- The text "block is already built". -/
  | alreadyBuilt
  /-- The text "failed to build block", wrapping the error of `NewTree`. -/
  | failedToBuild (cause : String)
  /-- The text "failed to encode checkpoints". -/
  | failedToEncode (cause : String)
  /-- The text "failed to decode checkpoints". -/
  | failedToDecode (cause : String)
  /-- The text "failed to add checkpoint in the block". -/
  | failedToAdd (cause : Error)
  deriving DecidableEq, Repr

/-- The struct `checkpointBlock` without its mutex. -/
structure checkpointBlock (M : Merkle) where
  /-- The key list. -/
  uIDs : List String
  /-- The entry mapping. -/
  numbers : Entries
  /-- The tree, `nil` until the block is built. -/
  tree : Option M.Tree
  /-- The built flag. -/
  built : Bool

variable {M : Merkle}

/-- The constructor `NewBlock`. -/
def NewBlock : checkpointBlock M :=
  { uIDs := [], numbers := ∅, tree := none, built := false }

/-- The method `Hash`.  `none` is the call of `Root` on a nil tree. -/
def checkpointBlock.Hash (bl : checkpointBlock M) : Option common.Hash :=
  if !bl.built then some 0
  else bl.tree.map M.Root

/-- The method `AddCheckpoint`: the block afterwards and the returned error. -/
def checkpointBlock.AddCheckpoint (bl : checkpointBlock M) (uid number : Int) :
    checkpointBlock M × Option Error :=
  if bigString uid ∈ bl.numbers then
    (bl, some (.duplicateCheckpoint (bigString uid)))
  else
    ({ bl with
        uIDs := sortStrings (bl.uIDs ++ [bigString uid])
        numbers := bl.numbers.insert (bigString uid) (common.BigToHash number) },
      none)

/-- The method `NumberOfCheckpoints`. -/
def checkpointBlock.NumberOfCheckpoints (bl : checkpointBlock M) : Int :=
  (bl.numbers.keys.card : Int)

/-- The method `Build`: the block afterwards, the returned hash and the
returned error.  The result is `none` when the call never returns: with an
unsorted key list it locks the mutex that it already holds. -/
def checkpointBlock.Build (bl : checkpointBlock M) :
    Option (checkpointBlock M × common.Hash × Option Error) :=
  if bl.built then
    some (bl, 0, some .alreadyBuilt)
  else if !StringsAreSorted bl.uIDs then
    none
  else
    match M.NewTree bl.numbers Depth257 with
    | .error e => some (bl, 0, some (.failedToBuild e))
    | .ok tree => some ({ bl with tree := some tree, built := true }, M.Root tree, none)

/-- The method `Marshal`. -/
def checkpointBlock.Marshal (J : JSON) (bl : checkpointBlock M) : Except Error String :=
  match J.Marshal bl.numbers with
  | .error e => .error (.failedToEncode e)
  | .ok raw => .ok raw

/-- The loop of `Unmarshal` over the decoded entries in the order in which
`range` visits them. -/
def checkpointBlock.addDecoded (bl : checkpointBlock M) :
    List (String × common.Hash) → checkpointBlock M × Option Error
  | [] => (bl, none)
  | (uidStr, checkpoint) :: rest =>
    match SetString uidStr with
    | none => bl.addDecoded rest
    | some id =>
      match bl.AddCheckpoint id checkpoint.Big with
      | (bl', some err) => (bl', some (.failedToAdd err))
      | (bl', none) => bl'.addDecoded rest

/-- The list `kvs` visits every entry of the map `m` once: a possible order of
`range` over `m`. -/
def RangeOrder (m : Entries) (kvs : List (String × common.Hash)) : Prop :=
  ((kvs.map fun p => (⟨p.1, p.2⟩ : Sigma fun _ : String => common.Hash)) : Multiset _) = m.entries

/-- The method `Unmarshal`; `order` is the order in which `range` visits the
decoded map. -/
def checkpointBlock.Unmarshal (J : JSON) (order : Entries → List (String × common.Hash))
    (bl : checkpointBlock M) (raw : String) : checkpointBlock M × Option Error :=
  match J.Unmarshal raw with
  | .error e => (bl, some (.failedToDecode e))
  | .ok checkpoints => bl.addDecoded (order checkpoints)

/-- The method `CreateProof`.  The empty list is the nil slice of a block that
is not built; `none` is the use of a nil tree. -/
def checkpointBlock.CreateProof (bl : checkpointBlock M) (uid : Int) : Option (List UInt8) :=
  if !bl.built then some []
  else bl.tree.map (M.CreateProof uid Depth257)

/-! ## Sequences of calls -/

/-- The calls of `AddCheckpoint` on the pairs of a list, one after the other:
the block afterwards and the returned errors. -/
def checkpointBlock.addAll (bl : checkpointBlock M) :
    List (Int × Int) → checkpointBlock M × List (Option Error)
  | [] => (bl, [])
  | (uid, number) :: rest =>
    let r := bl.AddCheckpoint uid number
    let rs := r.1.addAll rest
    (rs.1, r.2 :: rs.2)

/-- A method call on a block. -/
inductive Call where
  /-- The call `AddCheckpoint(uid, number)`. -/
  | AddCheckpoint (uid number : Int)
  /-- The call `Build()`. -/
  | Build
  /-- The call `Unmarshal(raw)`, with the codec and the order in which `range`
  visits the decoded map; every list is admitted as such an order. -/
  | Unmarshal (J : JSON) (order : Entries → List (String × common.Hash)) (raw : String)
  /-- The call `Marshal()`. -/
  | Marshal (J : JSON)
  /-- The call `Hash()`. -/
  | Hash
  /-- The call `CreateProof(uid)`. -/
  | CreateProof (uid : Int)
  /-- The call `NumberOfCheckpoints()`. -/
  | NumberOfCheckpoints

/-- The block after a call; `none` when the call does not return. -/
def checkpointBlock.call (bl : checkpointBlock M) : Call → Option (checkpointBlock M)
  | .AddCheckpoint uid number => some (bl.AddCheckpoint uid number).1
  | .Build => bl.Build.map fun r => r.1
  | .Unmarshal J order raw => some (bl.Unmarshal J order raw).1
  | .Marshal _ => some bl
  | .Hash => bl.Hash.map fun _ => bl
  | .CreateProof uid => (bl.CreateProof uid).map fun _ => bl
  | .NumberOfCheckpoints => some bl

/-- The block after a sequence of calls; `none` when one of them does not
return. -/
def checkpointBlock.calls (bl : checkpointBlock M) : List Call → Option (checkpointBlock M)
  | [] => some bl
  | c :: cs =>
    match bl.call c with
    | none => none
    | some bl' => bl'.calls cs

/-- The number of calls of `AddCheckpoint` in the loop of `Unmarshal` that
return no error. -/
def checkpointBlock.addDecodedSuccesses (bl : checkpointBlock M) :
    List (String × common.Hash) → Nat
  | [] => 0
  | (uidStr, checkpoint) :: rest =>
    match SetString uidStr with
    | none => bl.addDecodedSuccesses rest
    | some id =>
      match bl.AddCheckpoint id checkpoint.Big with
      | (_, some _) => 0
      | (bl', none) => bl'.addDecodedSuccesses rest + 1

/-- The number of calls of `AddCheckpoint`, direct or from `Unmarshal`, that
return no error during a call. -/
def checkpointBlock.callSuccesses (bl : checkpointBlock M) : Call → Nat
  | .AddCheckpoint uid number => if (bl.AddCheckpoint uid number).2 = none then 1 else 0
  | .Unmarshal J order raw =>
    match J.Unmarshal raw with
    | .error _ => 0
    | .ok checkpoints => bl.addDecodedSuccesses (order checkpoints)
  | _ => 0

/-- The number of calls of `AddCheckpoint`, direct or from `Unmarshal`, that
return no error during a sequence of calls. -/
def checkpointBlock.callsSuccesses (bl : checkpointBlock M) : List Call → Nat
  | [] => 0
  | c :: cs =>
    match bl.call c with
    | none => bl.callSuccesses c
    | some bl' => bl.callSuccesses c + bl'.callsSuccesses cs

/-- The calls of `AddCheckpoint` that the loop of `Unmarshal` makes on the
decoded entries when none of them fails: one for every key that parses. -/
def decodedCalls (kvs : List (String × common.Hash)) : List (Int × Int) :=
  kvs.filterMap fun p => (SetString p.1).map fun id => (id, p.2.Big)

/-- The consistency of the fields of a block: the key list is sorted, has no
duplicates and holds exactly the keys of the entry mapping, and a built block
has its tree. -/
structure checkpointBlock.WellFormed (bl : checkpointBlock M) : Prop where
  /-- The key list is in the order of `sort.Strings`. -/
  sorted : bl.uIDs.Sorted StrLe
  /-- The key list has no duplicates. -/
  nodup : bl.uIDs.Nodup
  /-- The key list holds the keys of the entry mapping. -/
  keys : ∀ k, k ∈ bl.uIDs ↔ k ∈ bl.numbers
  /-- A built block has a tree. -/
  tree : bl.built = true → bl.tree.isSome = true

/-- The keys `a` and `b` are decimal strings of integers, and the integer of
`a` is at most the integer of `b`: the numeric order of two keys. -/
def numLe (a b : String) : Bool :=
  match SetString a, SetString b with
  | some x, some y => decide (x ≤ y)
  | _, _ => false

/-! ## The order of `sort.Strings` is total, antisymmetric and transitive -/

instance StrLe.isTotal : IsTotal String StrLe where
  total a b := by
    have asymm : ∀ x y : List Char, strLt x y = true → strLt y x = false := by
      intro x
      induction x with
      | nil => intro y _; cases y <;> rfl
      | cons c cs ih =>
        intro y h
        cases y with
        | nil => simp [strLt] at h
        | cons d ds =>
          simp only [strLt] at h ⊢
          split_ifs at h ⊢
          all_goals first | omega | exact ih ds h | simp_all
    unfold StrLe
    cases h : strLt b.data a.data
    · exact Or.inl rfl
    · exact Or.inr (asymm _ _ h)

instance StrLe.isAntisymm : IsAntisymm String StrLe where
  antisymm a b h h' := by
    have connected : ∀ x y : List Char, strLt x y = false → strLt y x = false → x = y := by
      intro x
      induction x with
      | nil => intro y h _; cases y with
        | nil => rfl
        | cons d ds => simp [strLt] at h
      | cons c cs ih =>
        intro y h h'
        cases y with
        | nil => simp [strLt] at h'
        | cons d ds =>
          simp only [strLt] at h h'
          split_ifs at h h'
          have hcd : c = d := Char.ext (UInt32.ext (by
            have : c.toNat = d.toNat := by omega
            exact this))
          rw [hcd, ih ds h h']
    exact String.ext (connected _ _ h' h)

instance StrLe.isTrans : IsTrans String StrLe where
  trans a b c h h' := by
    have ltTrans : ∀ x y z : List Char, strLt x y = true → strLt y z = true →
        strLt x z = true := by
      intro x
      induction x with
      | nil =>
        intro y z h h'
        cases z with
        | nil => cases y <;> simp [strLt] at h'
        | cons e es => rfl
      | cons c cs ih =>
        intro y z h h'
        cases y with
        | nil => simp [strLt] at h
        | cons d ds =>
          cases z with
          | nil => simp [strLt] at h'
          | cons e es =>
            simp only [strLt] at h h' ⊢
            split_ifs at h h' ⊢
            all_goals first | omega | exact ih ds es h h' | simp_all
    unfold StrLe at *
    cases hca : strLt c.data a.data
    · rfl
    · cases hbc : strLt b.data c.data
      · have hcb : c = b := StrLe.isAntisymm.antisymm c b hbc h'
        rw [hcb, h] at hca
        exact absurd hca (by decide)
      · rw [ltTrans _ _ _ hbc hca] at h
        exact absurd h (by decide)

/-! ## The package `encoding/json` on `map[string]common.Hash` -/

/-- The keys of an entry mapping in the order of `sort.Strings`. -/
def sortedKeys (m : Entries) : List String :=
  Quot.liftOn m.keys.val sortStrings fun a b (h : a.Perm b) =>
    List.eq_of_perm_of_sorted
      ((List.perm_insertionSort StrLe a).trans (h.trans (List.perm_insertionSort StrLe b).symm))
      (List.sorted_insertionSort StrLe a) (List.sorted_insertionSort StrLe b)

/-- The digit `d` in base 16, in lower case. -/
def hexDigit (d : Nat) : Char := "0123456789abcdef".data.getD d '0'

/-- The digits of `v` in base 16, most significant first, on `n` places. -/
def hexFixed : Nat → Nat → List Char
  | 0, _ => []
  | n + 1, v => hexFixed n (v / 16) ++ [hexDigit (v % 16)]

/-- The value of a hexadecimal digit, in either case. -/
def hexVal (c : Char) : Option Nat :=
  if 48 ≤ c.toNat ∧ c.toNat ≤ 57 then some (c.toNat - 48)
  else if 97 ≤ c.toNat ∧ c.toNat ≤ 102 then some (c.toNat - 87)
  else if 65 ≤ c.toNat ∧ c.toNat ≤ 70 then some (c.toNat - 55)
  else none

/-- The method `Hash.MarshalText`: `0x` and the 64 hexadecimal digits of the
32 bytes. -/
def hashText (h : common.Hash) : List Char := '0' :: 'x' :: hexFixed 64 h.val

/-- The text that `json.Marshal` writes for a character of a string: the
quote, the backslash, the control characters, `<`, `>`, `&` and the line
separators U+2028 and U+2029 are escaped (as Go 1.22 writes them; before,
backspace and form feed were written `\u0008` and `\u000c`, which read back
the same). -/
def quoteChar (c : Char) : List Char :=
  if c.toNat = 34 then ['\\', '"']
  else if c.toNat = 92 then ['\\', '\\']
  else if c.toNat = 8 then ['\\', 'b']
  else if c.toNat = 12 then ['\\', 'f']
  else if c.toNat = 10 then ['\\', 'n']
  else if c.toNat = 13 then ['\\', 'r']
  else if c.toNat = 9 then ['\\', 't']
  else if c.toNat < 32 ∨ c.toNat = 60 ∨ c.toNat = 62 ∨ c.toNat = 38 then
    ['\\', 'u', '0', '0', hexDigit (c.toNat / 16), hexDigit (c.toNat % 16)]
  else if c.toNat = 8232 ∨ c.toNat = 8233 then
    ['\\', 'u', '2', '0', '2', hexDigit (c.toNat % 16)]
  else [c]

/-- The text that `json.Marshal` writes for a string. -/
def quoteString : List Char → List Char
  | [] => ['"']
  | c :: cs => quoteChar c ++ quoteString cs

/-- The members of the object that `json.Marshal` writes for a map, separated
by commas: the quoted key, a colon and the quoted text of the hash. -/
def writeMembers : List (String × common.Hash) → List Char
  | [] => []
  | [(k, h)] => '"' :: quoteString k.data ++ ':' :: '"' :: hashText h ++ ['"']
  | (k, h) :: rest =>
    '"' :: quoteString k.data ++ ':' :: '"' :: hashText h ++ '"' :: ',' :: writeMembers rest

/-- The entries of a map in the order of their keys, in which `json.Marshal`
writes them. -/
def sortedEntries (m : Entries) : List (String × common.Hash) :=
  (sortedKeys m).filterMap fun k => (m.lookup k).map fun h => (k, h)

/-- The function `json.Marshal` on a non-nil `map[string]common.Hash`: an
object with the keys in sorted order and no white space.  It never fails. -/
def jsonMarshal (m : Entries) : Except String String :=
  .ok ⟨'{' :: writeMembers (sortedEntries m) ++ ['}']⟩

/-- The white space of JSON: space, tab, carriage return and line feed. -/
def isSpace (c : Char) : Bool :=
  c.toNat = 32 || c.toNat = 9 || c.toNat = 13 || c.toNat = 10

/-- The text after leading white space. -/
def skipSpace : List Char → List Char
  | [] => []
  | c :: cs => if isSpace c then skipSpace cs else c :: cs

/-- Reads the four hexadecimal digits of a `\u` escape: their value and the
text after them. -/
def scanU4 : List Char → Option (Nat × List Char)
  | a :: b :: c :: d :: rest =>
    match hexVal a, hexVal b, hexVal c, hexVal d with
    | some w, some x, some y, some z => some (((w * 16 + x) * 16 + y) * 16 + z, rest)
    | _, _, _, _ => none
  | _ => none

/-- The character of the escape `\e` for a single letter `e`. -/
def unescape (e : Char) : Option Char :=
  if e.toNat = 34 ∨ e.toNat = 92 ∨ e.toNat = 47 then some e
  else if e = 'b' then some (Char.ofNat 8)
  else if e = 'f' then some (Char.ofNat 12)
  else if e = 'n' then some (Char.ofNat 10)
  else if e = 'r' then some (Char.ofNat 13)
  else if e = 't' then some (Char.ofNat 9)
  else none

/-- Reads a JSON string after its opening quote: the string it denotes and the
text after the closing quote.  A control character and a wrong escape are
errors; a `\u` escape of half a surrogate pair denotes U+FFFD. -/
def scanString : Nat → List Char → Option (List Char × List Char)
  | 0, _ => none
  | _ + 1, [] => none
  | fuel + 1, c :: cs =>
    if c.toNat = 34 then some ([], cs)
    else if c.toNat < 32 then none
    else if c.toNat = 92 then
      match cs with
      | [] => none
      | e :: cs' =>
        if e = 'u' then
          match scanU4 cs' with
          | none => none
          | some (r, rest) =>
            if 55296 ≤ r ∧ r < 57344 then
              match rest with
              | b :: u :: rest' =>
                match (if b.toNat = 92 ∧ u = 'u' then scanU4 rest' else none) with
                | some (r₂, rest'') =>
                  if r < 56320 ∧ 56320 ≤ r₂ ∧ r₂ < 57344 then
                    (scanString fuel rest'').map fun p =>
                      (Char.ofNat ((r - 55296) * 1024 + (r₂ - 56320) + 65536) :: p.1, p.2)
                  else (scanString fuel rest).map fun p => (Char.ofNat 65533 :: p.1, p.2)
                | none => (scanString fuel rest).map fun p => (Char.ofNat 65533 :: p.1, p.2)
              | _ => (scanString fuel rest).map fun p => (Char.ofNat 65533 :: p.1, p.2)
            else (scanString fuel rest).map fun p => (Char.ofNat r :: p.1, p.2)
        else
          match unescape e with
          | none => none
          | some d => (scanString fuel cs').map fun p => (d :: p.1, p.2)
    else (scanString fuel cs).map fun p => (c :: p.1, p.2)

/-- Reads `n` hexadecimal digits after the value `acc`: the value and the text
after them. -/
def scanHex : Nat → Nat → List Char → Option (Nat × List Char)
  | 0, acc, cs => some (acc, cs)
  | _ + 1, _, [] => none
  | n + 1, acc, c :: cs =>
    match hexVal c with
    | none => none
    | some d => scanHex n (acc * 16 + d) cs

/-- The method `Hash.UnmarshalJSON` on a JSON string after its opening quote:
`0x` or `0X`, 64 hexadecimal digits and the closing quote; the hash and the
text after the quote. -/
def scanHash : List Char → Option (common.Hash × List Char)
  | z :: x :: cs =>
    if z = '0' ∧ (x = 'x' ∨ x = 'X') then
      match scanHex 64 0 cs with
      | some (v, q :: rest) => if q.toNat = 34 then some (common.BigToHash v, rest) else none
      | _ => none
    else none
  | _ => none

/-- Reads the members of a JSON object from the opening quote of the first key
to the closing brace: the members and the text after the brace. -/
def scanMembers : Nat → List Char → Option (List (String × common.Hash) × List Char)
  | 0, _ => none
  | _ + 1, [] => none
  | fuel + 1, q :: cs =>
    if q.toNat = 34 then
      match scanString cs.length cs with
      | none => none
      | some (key, rest) =>
        match skipSpace rest with
        | [] => none
        | colon :: rest₁ =>
          if colon = ':' then
            match skipSpace rest₁ with
            | [] => none
            | q' :: rest₂ =>
              if q'.toNat = 34 then
                match scanHash rest₂ with
                | none => none
                | some (h, rest₃) =>
                  match skipSpace rest₃ with
                  | [] => none
                  | sep :: rest₄ =>
                    if sep = '}' then some ([(⟨key⟩, h)], rest₄)
                    else if sep = ',' then
                      (scanMembers fuel (skipSpace rest₄)).map fun r => ((⟨key⟩, h) :: r.1, r.2)
                    else none
              else none
          else none
    else none

/-- The map that `json.Unmarshal` stores for a JSON text: `null` gives the
empty (nil) map, an object gives its members, a key set twice keeping the last
value; every other text is an error. -/
def decodeMap (text : List Char) : Option Entries :=
  match skipSpace text with
  | [] => none
  | first :: rest =>
    if first = '{' then
      match skipSpace rest with
      | [] => none
      | c :: cs =>
        if c = '}' then (if (skipSpace cs).isEmpty then some ∅ else none)
        else
          match scanMembers (c :: cs).length (c :: cs) with
          | none => none
          | some (kvs, rest') =>
            if (skipSpace rest').isEmpty then some (kvs.foldl (fun m p => m.insert p.1 p.2) ∅)
            else none
    else if first = 'n' then
      match rest with
      | u :: l :: l' :: rest' =>
        if u = 'u' ∧ l = 'l' ∧ l' = 'l' ∧ (skipSpace rest').isEmpty then some ∅ else none
      | _ => none
    else none

/-- The function `json.Unmarshal` into a nil `map[string]common.Hash`.  The
text of the error is not modelled. -/
def jsonUnmarshal (raw : String) : Except String Entries :=
  match decodeMap raw.data with
  | some m => .ok m
  | none => .error "cannot decode"

/-- The package `encoding/json` of Go at the type `map[string]common.Hash`,
with the text methods of `common.Hash`. -/
def encodingJSON : JSON where
  Marshal := jsonMarshal
  Unmarshal := jsonUnmarshal

/-! ## Instances for concrete executions -/

/-- A `merkle` package for concrete executions: the tree is the entry mapping
itself, its root is the sum of the commitments (it stands for no hash
function), and a proof is empty. -/
def sampleMerkle : Merkle where
  Tree := Entries
  NewTree m _ := .ok m
  Root t := common.BigToHash ((t.entries.map fun e => e.2.val).sum)
  CreateProof _ _ _ := []

/-- The block that `Build` leaves when it is called on a new block, with the
sample `merkle` package. -/
def sampleBuilt : checkpointBlock sampleMerkle :=
  { uIDs := [], numbers := ∅, tree := some (∅ : Entries), built := true }

/-- The JSON text of the map with the keys `-2` and `1`. -/
def sampleText : String :=
  "\x7b\"-2\":\"0x0000000000000000000000000000000000000000000000000000000000000007\"," ++
  "\"1\":\"0x0000000000000000000000000000000000000000000000000000000000000005\"\x7d"

/-- A JSON text with a key that does not parse and a key with a leading zero. -/
def sampleTextSkip : String :=
  "\x7b\"01\":\"0x0000000000000000000000000000000000000000000000000000000000000005\"," ++
  "\"x\":\"0x0000000000000000000000000000000000000000000000000000000000000007\"\x7d"

/-- A JSON text with two keys that parse to the same integer. -/
def sampleTextRepeat : String :=
  "\x7b\"01\":\"0x0000000000000000000000000000000000000000000000000000000000000005\"," ++
  "\"1\":\"0x0000000000000000000000000000000000000000000000000000000000000007\"\x7d"

/-! ## The order of `sort.Strings` -/

theorem sortStrings_sorted (l : List String) : (sortStrings l).Sorted StrLe :=
  List.sorted_insertionSort StrLe l

theorem sortStrings_perm (l : List String) : (sortStrings l).Perm l :=
  List.perm_insertionSort StrLe l

/-- Every sorted rearrangement of a list is the result of `sortStrings`. -/
theorem sortStrings_unique {l l' : List String} (hp : l'.Perm l) (hs : l'.Sorted StrLe) :
    l' = sortStrings l :=
  List.eq_of_perm_of_sorted (hp.trans (sortStrings_perm l).symm) hs (sortStrings_sorted l)

theorem sortStrings_congr {l l' : List String} (hp : l.Perm l') :
    sortStrings l = sortStrings l' :=
  sortStrings_unique ((sortStrings_perm l).trans hp) (sortStrings_sorted l)

theorem StringsAreSorted_iff : ∀ l : List String, StringsAreSorted l = true ↔ l.Sorted StrLe
  | [] => by simp [StringsAreSorted]
  | [_] => by simp [StringsAreSorted]
  | a :: b :: rest => by
    have ih := StringsAreSorted_iff (b :: rest)
    rw [StringsAreSorted, Bool.and_eq_true, ih]
    unfold List.Sorted
    rw [← List.chain'_iff_pairwise, ← List.chain'_iff_pairwise, List.chain'_cons]
    simp [StrLe]

/-! ## Decimal strings -/

theorem digitVal_digitChar (d : Nat) (h : d < 10) : digitVal (Nat.digitChar d) = some d := by
  interval_cases d <;> decide

theorem scanDigits_append (xs ys : List Char) : ∀ acc,
    scanDigits acc (xs ++ ys) = (scanDigits acc xs).bind fun a => scanDigits a ys := by
  induction xs with
  | nil => intro acc; rfl
  | cons c cs ih =>
    intro acc
    simp only [List.cons_append, scanDigits]
    cases digitVal c with
    | none => rfl
    | some d => exact ih _

theorem toDigitsCore_append (fuel : Nat) : ∀ n ds,
    Nat.toDigitsCore 10 fuel n ds = Nat.toDigitsCore 10 fuel n [] ++ ds := by
  induction fuel with
  | zero => intro n ds; rfl
  | succ fuel ih =>
    intro n ds
    simp only [Nat.toDigitsCore]
    split_ifs
    · rfl
    · rw [ih _ (_ :: ds), ih _ [_]]; simp

theorem scanDigits_toDigitsCore (fuel : Nat) : ∀ n, n < fuel →
    scanDigits 0 (Nat.toDigitsCore 10 fuel n []) = some n := by
  induction fuel with
  | zero => intro n h; omega
  | succ fuel ih =>
    intro n h
    simp only [Nat.toDigitsCore]
    split_ifs with h0
    · have hn : n % 10 = n := by omega
      have hd := digitVal_digitChar (n % 10) (Nat.mod_lt _ (by decide))
      rw [hn] at hd
      simp [scanDigits, hd, hn]
    · rw [toDigitsCore_append, scanDigits_append, ih (n / 10) (by omega)]
      simp only [Option.some_bind, scanDigits,
        digitVal_digitChar (n % 10) (Nat.mod_lt _ (by decide))]
      congr 1
      omega

theorem toDigits_eq_cons (n : Nat) : ∃ c cs, Nat.toDigits 10 n = c :: cs := by
  unfold Nat.toDigits
  simp only [Nat.toDigitsCore]
  split_ifs
  · exact ⟨_, _, rfl⟩
  · rw [toDigitsCore_append]
    cases h : Nat.toDigitsCore 10 n (n / 10) [] with
    | nil => exact ⟨_, _, rfl⟩
    | cons c cs => exact ⟨c, cs ++ _, rfl⟩

theorem scanNat_toDigits (n : Nat) : scanNat (Nat.toDigits 10 n) = some n := by
  obtain ⟨c, cs, h⟩ := toDigits_eq_cons n
  have := scanDigits_toDigitsCore (n + 1) n (Nat.lt_succ_self n)
  rw [h, scanNat]
  rw [← h]
  exact this

theorem SetString_digits (c : Char) (cs : List Char) (n : Nat)
    (h : scanNat (c :: cs) = some n) : SetString ⟨c :: cs⟩ = some (n : Int) := by
  have hc : digitVal c ≠ none := by
    intro hc
    simp [scanNat, scanDigits, hc] at h
  have h1 : c ≠ '-' := by rintro rfl; exact hc (by decide)
  have h2 : c ≠ '+' := by rintro rfl; exact hc (by decide)
  unfold SetString
  split
  · rename_i heq; simp at heq; exact absurd heq.1 h1
  · rename_i heq; simp at heq; exact absurd heq.1 h2
  · simp [h]

/-- Parsing the decimal rendering of an integer gives the integer back. -/
theorem SetString_bigString (x : Int) : SetString (bigString x) = some x := by
  cases x with
  | ofNat n =>
    obtain ⟨c, cs, h⟩ := toDigits_eq_cons n
    have hs : bigString (Int.ofNat n) = ⟨c :: cs⟩ := by
      show toString (Int.ofNat n) = _
      simp only [toString, Nat.repr, List.asString, h]
    rw [hs]
    exact SetString_digits c cs n (h ▸ scanNat_toDigits n)
  | negSucc n =>
    have hs : (bigString (Int.negSucc n)).data = '-' :: Nat.toDigits 10 (n + 1) := by
      show (toString (Int.negSucc n)).data = _
      simp [toString, Nat.repr, List.asString]
    unfold SetString
    rw [hs]
    simp only [scanNat_toDigits, Option.map_some']
    rfl

theorem bigString_injective : Function.Injective bigString := by
  intro x y h
  have := SetString_bigString x
  rw [h, SetString_bigString] at this
  exact (Option.some.inj this).symm

/-! ## Single calls -/

theorem AddCheckpoint_of_mem (bl : checkpointBlock M) (uid number : Int)
    (h : bigString uid ∈ bl.numbers) :
    bl.AddCheckpoint uid number = (bl, some (.duplicateCheckpoint (bigString uid))) := by
  simp [checkpointBlock.AddCheckpoint, h]

theorem AddCheckpoint_of_not_mem (bl : checkpointBlock M) (uid number : Int)
    (h : bigString uid ∉ bl.numbers) :
    bl.AddCheckpoint uid number =
      ({ bl with
          uIDs := sortStrings (bl.uIDs ++ [bigString uid])
          numbers := bl.numbers.insert (bigString uid) (common.BigToHash number) }, none) := by
  simp [checkpointBlock.AddCheckpoint, h]

theorem AddCheckpoint_error_iff (bl : checkpointBlock M) (uid number : Int) :
    (bl.AddCheckpoint uid number).2 = none ↔ bigString uid ∉ bl.numbers := by
  by_cases h : bigString uid ∈ bl.numbers
  · simp [AddCheckpoint_of_mem bl uid number h, h]
  · simp [AddCheckpoint_of_not_mem bl uid number h, h]

theorem AddCheckpoint_tree (bl : checkpointBlock M) (uid number : Int) :
    (bl.AddCheckpoint uid number).1.tree = bl.tree ∧
      (bl.AddCheckpoint uid number).1.built = bl.built := by
  by_cases h : bigString uid ∈ bl.numbers
  · simp [AddCheckpoint_of_mem bl uid number h]
  · simp [AddCheckpoint_of_not_mem bl uid number h]

theorem addAll_duplicates (bl : checkpointBlock M) (uid : Int) (h : bigString uid ∈ bl.numbers) :
    ∀ numbers : List Int, bl.addAll (numbers.map fun n => (uid, n)) =
      (bl, numbers.map fun _ => some (.duplicateCheckpoint (bigString uid)))
  | [] => rfl
  | n :: ns => by
    simp only [List.map_cons, checkpointBlock.addAll, AddCheckpoint_of_mem bl uid n h,
      addAll_duplicates bl uid h ns]

/-- The effect of a run of `AddCheckpoint` calls with fresh, pairwise distinct
uids: every call succeeds, the key list is the sorted list of all keys, the
mapping gains exactly the new bindings, and tree and flag are untouched. -/
theorem addAll_fresh : ∀ (l : List (Int × Int)) (bl : checkpointBlock M),
    bl.uIDs.Sorted StrLe →
    (l.map Prod.fst).Nodup → (∀ p ∈ l, bigString p.1 ∉ bl.numbers) →
    (∀ e ∈ (bl.addAll l).2, e = none) ∧
    (bl.addAll l).1.uIDs = sortStrings (bl.uIDs ++ l.map fun p => bigString p.1) ∧
    (∀ k h, (bl.addAll l).1.numbers.lookup k = some h ↔
      (∃ p ∈ l, bigString p.1 = k ∧ common.BigToHash p.2 = h) ∨ bl.numbers.lookup k = some h) ∧
    (bl.addAll l).1.tree = bl.tree ∧ (bl.addAll l).1.built = bl.built
  | [], bl => by
    intro hs _ _
    refine ⟨by simp [checkpointBlock.addAll], ?_, by simp [checkpointBlock.addAll], rfl, rfl⟩
    simp only [checkpointBlock.addAll, List.map_nil, List.append_nil]
    exact sortStrings_unique (List.Perm.refl _) hs
  | (uid, number) :: rest, bl => by
    intro hs hnd hfresh
    have hu : bigString uid ∉ bl.numbers := hfresh (uid, number) (List.mem_cons_self _ _)
    rw [List.map_cons, List.nodup_cons] at hnd
    have hstep := AddCheckpoint_of_not_mem bl uid number hu
    have hrest : ∀ p ∈ rest, bigString p.1 ≠ bigString uid := by
      intro p hp he
      apply hnd.1
      have hm : p.1 ∈ rest.map Prod.fst := List.mem_map_of_mem Prod.fst hp
      rwa [bigString_injective he] at hm
    have hfresh' : ∀ p ∈ rest, bigString p.1 ∉ (bl.AddCheckpoint uid number).1.numbers := by
      intro p hp
      rw [hstep]
      simp only [Finmap.mem_insert, not_or]
      exact ⟨hrest p hp, hfresh p (List.mem_cons_of_mem _ hp)⟩
    have hs' : (bl.AddCheckpoint uid number).1.uIDs.Sorted StrLe := by
      rw [hstep]; exact sortStrings_sorted _
    obtain ⟨h1, h2, h3, h4, h5⟩ :=
      addAll_fresh rest (bl.AddCheckpoint uid number).1 hs' hnd.2 hfresh'
    simp only [checkpointBlock.addAll]
    refine ⟨?_, ?_, ?_, ?_, ?_⟩
    · intro e he
      rcases List.mem_cons.1 he with rfl | he
      · rw [hstep]
      · exact h1 e he
    · rw [h2, hstep]
      apply sortStrings_congr
      simp only [List.map_cons]
      refine ((sortStrings_perm _).append_right _).trans ?_
      simp
    · intro k h
      rw [h3 k h, hstep]
      simp only [List.mem_cons, exists_eq_or_imp]
      by_cases hk : k = bigString uid
      · subst hk
        simp only [Finmap.lookup_insert, Option.some.injEq, true_and]
        have hnone : bl.numbers.lookup (bigString uid) = none := Finmap.lookup_eq_none.2 hu
        have hno : ¬ ∃ p ∈ rest, bigString p.1 = bigString uid ∧ common.BigToHash p.2 = h :=
          fun ⟨p, hp, he, _⟩ => hrest p hp he
        rw [hnone]
        simp [hno]
      · rw [Finmap.lookup_insert_of_ne _ hk]
        have : ¬ bigString uid = k := fun e => hk e.symm
        simp only [this, false_and, false_or]
    · rw [h4, hstep]
    · rw [h5, hstep]

theorem NewBlock_wellFormed : (NewBlock : checkpointBlock M).WellFormed :=
  ⟨List.sorted_nil, List.nodup_nil, fun k => by simp [NewBlock, Finmap.not_mem_empty], fun h => by simp [NewBlock] at h⟩

theorem AddCheckpoint_wellFormed {bl : checkpointBlock M} (hw : bl.WellFormed)
    (uid number : Int) : (bl.AddCheckpoint uid number).1.WellFormed := by
  by_cases h : bigString uid ∈ bl.numbers
  · rw [AddCheckpoint_of_mem bl uid number h]; exact hw
  · rw [AddCheckpoint_of_not_mem bl uid number h]
    refine ⟨sortStrings_sorted _, ?_, ?_, hw.tree⟩
    · refine (sortStrings_perm _).nodup_iff.2 ?_
      rw [List.nodup_append]
      refine ⟨hw.nodup, List.nodup_singleton _, ?_⟩
      intro a ha ha'
      rw [List.mem_singleton] at ha'
      subst ha'
      exact h ((hw.keys _).1 ha)
    · intro k
      simp only [(sortStrings_perm _).mem_iff, List.mem_append, List.mem_singleton,
        Finmap.mem_insert, hw.keys k]
      tauto

theorem AddCheckpoint_length (bl : checkpointBlock M) (uid number : Int) :
    (bl.AddCheckpoint uid number).1.uIDs.length =
      bl.uIDs.length + if (bl.AddCheckpoint uid number).2 = none then 1 else 0 := by
  by_cases h : bigString uid ∈ bl.numbers
  · simp [AddCheckpoint_of_mem bl uid number h]
  · simp [AddCheckpoint_of_not_mem bl uid number h, (sortStrings_perm _).length_eq]

theorem addDecoded_cons_skip (bl : checkpointBlock M) (uidStr : String) (checkpoint : common.Hash)
    (rest : List (String × common.Hash)) (hp : SetString uidStr = none) :
    bl.addDecoded ((uidStr, checkpoint) :: rest) = bl.addDecoded rest ∧
      bl.addDecodedSuccesses ((uidStr, checkpoint) :: rest) = bl.addDecodedSuccesses rest := by
  simp [checkpointBlock.addDecoded, checkpointBlock.addDecodedSuccesses, hp]

theorem addDecoded_cons_fresh (bl : checkpointBlock M) (uidStr : String) (checkpoint : common.Hash)
    (rest : List (String × common.Hash)) (id : Int) (hp : SetString uidStr = some id)
    (h : bigString id ∉ bl.numbers) :
    bl.addDecoded ((uidStr, checkpoint) :: rest) =
        (bl.AddCheckpoint id checkpoint.Big).1.addDecoded rest ∧
      bl.addDecodedSuccesses ((uidStr, checkpoint) :: rest) =
        (bl.AddCheckpoint id checkpoint.Big).1.addDecodedSuccesses rest + 1 := by
  simp [checkpointBlock.addDecoded, checkpointBlock.addDecodedSuccesses, hp,
    AddCheckpoint_of_not_mem bl id checkpoint.Big h]

theorem addDecoded_cons_duplicate (bl : checkpointBlock M) (uidStr : String)
    (checkpoint : common.Hash) (rest : List (String × common.Hash)) (id : Int)
    (hp : SetString uidStr = some id) (h : bigString id ∈ bl.numbers) :
    bl.addDecoded ((uidStr, checkpoint) :: rest) =
        (bl, some (.failedToAdd (.duplicateCheckpoint (bigString id)))) ∧
      bl.addDecodedSuccesses ((uidStr, checkpoint) :: rest) = 0 := by
  simp [checkpointBlock.addDecoded, checkpointBlock.addDecodedSuccesses, hp,
    AddCheckpoint_of_mem bl id checkpoint.Big h]

theorem addDecoded_wellFormed : ∀ (kvs : List (String × common.Hash)) {bl : checkpointBlock M},
    bl.WellFormed → (bl.addDecoded kvs).1.WellFormed ∧
      (bl.addDecoded kvs).1.uIDs.length = bl.uIDs.length + bl.addDecodedSuccesses kvs ∧
      (bl.addDecoded kvs).1.tree = bl.tree ∧ (bl.addDecoded kvs).1.built = bl.built
  | [], bl => fun hw => ⟨hw, rfl, rfl, rfl⟩
  | (uidStr, checkpoint) :: rest, bl => by
    intro hw
    cases hp : SetString uidStr with
    | none =>
      obtain ⟨e1, e2⟩ := addDecoded_cons_skip bl uidStr checkpoint rest hp
      rw [e1, e2]
      exact addDecoded_wellFormed rest hw
    | some id =>
      by_cases h : bigString id ∈ bl.numbers
      · obtain ⟨e1, e2⟩ := addDecoded_cons_duplicate bl uidStr checkpoint rest id hp h
        rw [e1, e2]
        exact ⟨hw, rfl, rfl, rfl⟩
      · obtain ⟨e1, e2⟩ := addDecoded_cons_fresh bl uidStr checkpoint rest id hp h
        rw [e1, e2]
        have hw' := AddCheckpoint_wellFormed hw id checkpoint.Big
        have hl := AddCheckpoint_length bl id checkpoint.Big
        have ht := AddCheckpoint_tree bl id checkpoint.Big
        obtain ⟨h1, h2, h3, h4⟩ := addDecoded_wellFormed rest hw'
        refine ⟨h1, ?_, h3.trans ht.1, h4.trans ht.2⟩
        rw [h2, hl, if_pos ((AddCheckpoint_error_iff bl id checkpoint.Big).2 h)]
        omega

theorem Build_returns {bl : checkpointBlock M} (hw : bl.WellFormed) :
    ∃ bl' root err, bl.Build = some (bl', root, err) ∧ bl'.WellFormed ∧
      bl'.uIDs = bl.uIDs ∧ bl'.numbers = bl.numbers ∧ (bl.built = true → bl' = bl) := by
  unfold checkpointBlock.Build
  by_cases hb : bl.built = true
  · exact ⟨bl, 0, some .alreadyBuilt, by simp [hb], hw, rfl, rfl, fun _ => rfl⟩
  · have hs : StringsAreSorted bl.uIDs = true := (StringsAreSorted_iff _).2 hw.sorted
    simp only [hb, hs, Bool.false_eq_true, if_false, Bool.not_true]
    cases M.NewTree bl.numbers Depth257 with
    | error e => exact ⟨bl, 0, _, rfl, hw, rfl, rfl, fun _ => rfl⟩
    | ok tree =>
      exact ⟨_, _, _, rfl, ⟨hw.sorted, hw.nodup, hw.keys, fun _ => rfl⟩, rfl, rfl,
        fun h => by simp at h⟩

theorem Unmarshal_of_error (bl : checkpointBlock M) (J : JSON)
    (order : Entries → List (String × common.Hash)) (raw e : String)
    (h : J.Unmarshal raw = .error e) :
    bl.Unmarshal J order raw = (bl, some (.failedToDecode e)) ∧
      bl.callSuccesses (.Unmarshal J order raw) = 0 := by
  simp [checkpointBlock.Unmarshal, checkpointBlock.callSuccesses, h]

theorem Unmarshal_of_ok (bl : checkpointBlock M) (J : JSON)
    (order : Entries → List (String × common.Hash)) (raw : String) (m : Entries)
    (h : J.Unmarshal raw = .ok m) :
    bl.Unmarshal J order raw = bl.addDecoded (order m) ∧
      bl.callSuccesses (.Unmarshal J order raw) = bl.addDecodedSuccesses (order m) := by
  simp [checkpointBlock.Unmarshal, checkpointBlock.callSuccesses, h]

theorem Unmarshal_wellFormed {bl : checkpointBlock M} (hw : bl.WellFormed) (J : JSON)
    (order : Entries → List (String × common.Hash)) (raw : String) :
    (bl.Unmarshal J order raw).1.WellFormed ∧
      (bl.Unmarshal J order raw).1.uIDs.length =
        bl.uIDs.length + bl.callSuccesses (.Unmarshal J order raw) ∧
      (bl.Unmarshal J order raw).1.tree = bl.tree ∧
      (bl.Unmarshal J order raw).1.built = bl.built := by
  cases h : J.Unmarshal raw with
  | error e =>
    obtain ⟨e1, e2⟩ := Unmarshal_of_error bl J order raw e h
    rw [e1, e2]
    exact ⟨hw, rfl, rfl, rfl⟩
  | ok m =>
    obtain ⟨e1, e2⟩ := Unmarshal_of_ok bl J order raw m h
    rw [e1, e2]
    exact addDecoded_wellFormed _ hw

theorem addDecoded_tree : ∀ (kvs : List (String × common.Hash)) (bl : checkpointBlock M),
    (bl.addDecoded kvs).1.tree = bl.tree ∧ (bl.addDecoded kvs).1.built = bl.built
  | [], _ => ⟨rfl, rfl⟩
  | (uidStr, checkpoint) :: rest, bl => by
    cases hp : SetString uidStr with
    | none =>
      rw [(addDecoded_cons_skip bl uidStr checkpoint rest hp).1]
      exact addDecoded_tree rest bl
    | some id =>
      by_cases h : bigString id ∈ bl.numbers
      · rw [(addDecoded_cons_duplicate bl uidStr checkpoint rest id hp h).1]
        exact ⟨rfl, rfl⟩
      · rw [(addDecoded_cons_fresh bl uidStr checkpoint rest id hp h).1]
        obtain ⟨h1, h2⟩ := addDecoded_tree rest (bl.AddCheckpoint id checkpoint.Big).1
        obtain ⟨h3, h4⟩ := AddCheckpoint_tree bl id checkpoint.Big
        exact ⟨h1.trans h3, h2.trans h4⟩

theorem Unmarshal_tree (bl : checkpointBlock M) (J : JSON)
    (order : Entries → List (String × common.Hash)) (raw : String) :
    (bl.Unmarshal J order raw).1.tree = bl.tree ∧
      (bl.Unmarshal J order raw).1.built = bl.built := by
  cases h : J.Unmarshal raw with
  | error e => rw [(Unmarshal_of_error bl J order raw e h).1]; exact ⟨rfl, rfl⟩
  | ok m => rw [(Unmarshal_of_ok bl J order raw m h).1]; exact addDecoded_tree _ bl

theorem Hash_of_built {bl : checkpointBlock M} {tree : M.Tree} (hb : bl.built = true)
    (ht : bl.tree = some tree) : bl.Hash = some (M.Root tree) := by
  simp [checkpointBlock.Hash, hb, ht]

theorem CreateProof_returns {bl : checkpointBlock M} (hw : bl.built = true → bl.tree.isSome = true)
    (uid : Int) : ∃ proof, bl.CreateProof uid = some proof := by
  unfold checkpointBlock.CreateProof
  by_cases hb : bl.built = true
  · obtain ⟨t, ht⟩ := Option.isSome_iff_exists.1 (hw hb)
    exact ⟨M.CreateProof uid Depth257 t, by simp [hb, ht]⟩
  · exact ⟨[], by simp [hb]⟩

theorem Hash_returns {bl : checkpointBlock M} (hw : bl.built = true → bl.tree.isSome = true) :
    ∃ h, bl.Hash = some h := by
  unfold checkpointBlock.Hash
  by_cases hb : bl.built = true
  · obtain ⟨t, ht⟩ := Option.isSome_iff_exists.1 (hw hb)
    exact ⟨M.Root t, by simp [hb, ht]⟩
  · exact ⟨0, by simp [hb]⟩

/-- Every call on a well-formed block returns and leaves a well-formed block,
whose key list has grown by the number of successful `AddCheckpoint` calls. -/
theorem call_wellFormed {bl : checkpointBlock M} (hw : bl.WellFormed) (c : Call) :
    ∃ bl', bl.call c = some bl' ∧ bl'.WellFormed ∧
      bl'.uIDs.length = bl.uIDs.length + bl.callSuccesses c := by
  cases c with
  | AddCheckpoint uid number =>
    exact ⟨_, rfl, AddCheckpoint_wellFormed hw uid number, AddCheckpoint_length bl uid number⟩
  | Build =>
    obtain ⟨bl', root, err, h, hw', hu, _⟩ := Build_returns hw
    exact ⟨bl', by simp [checkpointBlock.call, h], hw', by simp [hu, checkpointBlock.callSuccesses]⟩
  | Unmarshal J order raw =>
    obtain ⟨h1, h2, _⟩ := Unmarshal_wellFormed hw J order raw
    exact ⟨_, rfl, h1, h2⟩
  | Marshal J => exact ⟨bl, rfl, hw, rfl⟩
  | Hash =>
    obtain ⟨h, hh⟩ := Hash_returns hw.tree
    exact ⟨bl, by simp [checkpointBlock.call, hh], hw, rfl⟩
  | CreateProof uid =>
    obtain ⟨p, hp⟩ := CreateProof_returns hw.tree uid
    exact ⟨bl, by simp [checkpointBlock.call, hp], hw, rfl⟩
  | NumberOfCheckpoints => exact ⟨bl, rfl, hw, rfl⟩

theorem calls_wellFormed : ∀ (cs : List Call) {bl : checkpointBlock M}, bl.WellFormed →
    ∃ bl', bl.calls cs = some bl' ∧ bl'.WellFormed ∧
      bl'.uIDs.length = bl.uIDs.length + bl.callsSuccesses cs
  | [], bl => fun hw => ⟨bl, rfl, hw, rfl⟩
  | c :: cs, bl => by
    intro hw
    obtain ⟨bl₁, h1, hw₁, hl₁⟩ := call_wellFormed hw c
    obtain ⟨bl₂, h2, hw₂, hl₂⟩ := calls_wellFormed cs hw₁
    refine ⟨bl₂, by simp [checkpointBlock.calls, h1, h2], hw₂, ?_⟩
    simp only [checkpointBlock.callsSuccesses, h1]
    omega

/-- A built block with its tree stays so under every call, and every call on
it returns. -/
theorem call_built {bl : checkpointBlock M} {tree : M.Tree} (hb : bl.built = true)
    (ht : bl.tree = some tree) (c : Call) :
    ∃ bl', bl.call c = some bl' ∧ bl'.built = true ∧ bl'.tree = some tree := by
  have hsome : bl.built = true → bl.tree.isSome = true := fun _ => by simp [ht]
  cases c with
  | AddCheckpoint uid number =>
    obtain ⟨h1, h2⟩ := AddCheckpoint_tree bl uid number
    exact ⟨_, rfl, h2.trans hb, h1.trans ht⟩
  | Build => exact ⟨bl, by simp [checkpointBlock.call, checkpointBlock.Build, hb], hb, ht⟩
  | Unmarshal J order raw =>
    obtain ⟨h1, h2⟩ := Unmarshal_tree bl J order raw
    exact ⟨_, rfl, h2.trans hb, h1.trans ht⟩
  | Marshal J => exact ⟨bl, rfl, hb, ht⟩
  | Hash =>
    obtain ⟨h, hh⟩ := Hash_returns hsome
    exact ⟨bl, by simp [checkpointBlock.call, hh], hb, ht⟩
  | CreateProof uid =>
    obtain ⟨p, hp⟩ := CreateProof_returns hsome uid
    exact ⟨bl, by simp [checkpointBlock.call, hp], hb, ht⟩
  | NumberOfCheckpoints => exact ⟨bl, rfl, hb, ht⟩

theorem calls_built : ∀ (cs : List Call) {bl : checkpointBlock M} {tree : M.Tree},
    bl.built = true → bl.tree = some tree →
    ∃ bl', bl.calls cs = some bl' ∧ bl'.built = true ∧ bl'.tree = some tree
  | [], bl, _ => fun hb ht => ⟨bl, rfl, hb, ht⟩
  | c :: cs, bl, tree => by
    intro hb ht
    obtain ⟨bl₁, h1, hb₁, ht₁⟩ := call_built hb ht c
    obtain ⟨bl₂, h2, hb₂, ht₂⟩ := calls_built cs hb₁ ht₁
    exact ⟨bl₂, by simp [checkpointBlock.calls, h1, h2], hb₂, ht₂⟩

/-- A successful `Build` was entered on an unbuilt block and leaves the block
built, with the tree whose root it returns. -/
theorem Build_success {bl bl' : checkpointBlock M} {root : common.Hash}
    (h : bl.Build = some (bl', root, none)) :
    bl.built = false ∧ bl'.built = true ∧ ∃ tree, bl'.tree = some tree ∧ M.Root tree = root := by
  unfold checkpointBlock.Build at h
  by_cases hb : bl.built = true
  · simp [hb] at h
  · by_cases hs : StringsAreSorted bl.uIDs = true
    · simp only [hb, hs, Bool.false_eq_true, if_false, Bool.not_true] at h
      cases hn : M.NewTree bl.numbers Depth257 with
      | error e => simp [hn] at h
      | ok tree =>
        simp only [hn, Option.some.injEq, Prod.mk.injEq] at h
        obtain ⟨h1, h2, _⟩ := h
        subst h1
        exact ⟨by simpa using hb, rfl, tree, rfl, h2⟩
    · simp [hb, hs] at h

/-! ## The loop of `Unmarshal` -/

theorem BigToHash_Big (h : common.Hash) : common.BigToHash h.Big = h := by
  apply Fin.ext
  simp only [common.BigToHash, common.Hash.Big, Int.natAbs_ofNat]
  exact Nat.mod_eq_of_lt h.isLt

theorem decodedCalls_cons_skip (uidStr : String) (checkpoint : common.Hash)
    (rest : List (String × common.Hash)) (hp : SetString uidStr = none) :
    decodedCalls ((uidStr, checkpoint) :: rest) = decodedCalls rest := by
  simp [decodedCalls, List.filterMap_cons, hp]

theorem decodedCalls_cons_parse (uidStr : String) (checkpoint : common.Hash)
    (rest : List (String × common.Hash)) (id : Int) (hp : SetString uidStr = some id) :
    decodedCalls ((uidStr, checkpoint) :: rest) = (id, checkpoint.Big) :: decodedCalls rest := by
  simp [decodedCalls, List.filterMap_cons, hp]

theorem mem_decodedCalls {kvs : List (String × common.Hash)} {p : Int × Int} :
    p ∈ decodedCalls kvs ↔ ∃ k h, (k, h) ∈ kvs ∧ SetString k = some p.1 ∧ h.Big = p.2 := by
  simp only [decodedCalls, List.mem_filterMap, Option.map_eq_some', Prod.exists]
  constructor
  · rintro ⟨k, h, hm, id, hs, rfl⟩
    exact ⟨k, h, hm, hs, rfl⟩
  · rintro ⟨k, h, hm, hs, hb⟩
    exact ⟨k, h, hm, p.1, hs, by rw [hb]⟩

theorem decodedCalls_map_fst (kvs : List (String × common.Hash)) :
    (decodedCalls kvs).map Prod.fst = kvs.filterMap fun p => SetString p.1 := by
  induction kvs with
  | nil => rfl
  | cons a rest ih =>
    obtain ⟨k, h⟩ := a
    cases hp : SetString k with
    | none => rw [decodedCalls_cons_skip k h rest hp, ih]; simp [List.filterMap_cons, hp]
    | some id => rw [decodedCalls_cons_parse k h rest id hp, List.map_cons, ih]
                 simp [List.filterMap_cons, hp]

/-- When no call fails, the loop of `Unmarshal` is the run of `AddCheckpoint`
calls on the keys that parse. -/
theorem addDecoded_eq_addAll : ∀ (kvs : List (String × common.Hash)) (bl : checkpointBlock M),
    (∀ e ∈ (bl.addAll (decodedCalls kvs)).2, e = none) →
    bl.addDecoded kvs = ((bl.addAll (decodedCalls kvs)).1, none)
  | [], _ => fun _ => rfl
  | (uidStr, checkpoint) :: rest, bl => by
    intro hall
    cases hp : SetString uidStr with
    | none =>
      rw [decodedCalls_cons_skip uidStr checkpoint rest hp] at hall ⊢
      rw [(addDecoded_cons_skip bl uidStr checkpoint rest hp).1]
      exact addDecoded_eq_addAll rest bl hall
    | some id =>
      rw [decodedCalls_cons_parse uidStr checkpoint rest id hp] at hall ⊢
      simp only [checkpointBlock.addAll, List.mem_cons, forall_eq_or_imp] at hall ⊢
      have hfresh := (AddCheckpoint_error_iff bl id checkpoint.Big).1 hall.1
      rw [(addDecoded_cons_fresh bl uidStr checkpoint rest id hp hfresh).1]
      exact addDecoded_eq_addAll rest _ hall.2

theorem nodup_filterMap_of_inj {α β : Type} (f : α → Option β) (g : α → String) :
    ∀ l : List α, (l.map g).Nodup →
      (∀ p ∈ l, ∀ q ∈ l, ∀ b, f p = some b → f q = some b → g p = g q) →
      (l.filterMap f).Nodup
  | [], _, _ => List.nodup_nil
  | a :: l, hnd, hinj => by
    rw [List.map_cons, List.nodup_cons] at hnd
    have ih := nodup_filterMap_of_inj f g l hnd.2 fun p hp q hq =>
      hinj p (List.mem_cons_of_mem _ hp) q (List.mem_cons_of_mem _ hq)
    cases hfa : f a with
    | none => rw [List.filterMap_cons, hfa]; exact ih
    | some b =>
      rw [List.filterMap_cons, hfa]
      refine List.nodup_cons.2 ⟨?_, ih⟩
      intro hb
      obtain ⟨q, hq, hfq⟩ := List.mem_filterMap.1 hb
      apply hnd.1
      rw [hinj a (List.mem_cons_self _ _) q (List.mem_cons_of_mem _ hq) b hfa hfq]
      exact List.mem_map_of_mem g hq

theorem eq_of_nodup_filterMap {α β : Type} (f : α → Option β) :
    ∀ l : List α, (l.filterMap f).Nodup →
      ∀ p ∈ l, ∀ q ∈ l, ∀ b, f p = some b → f q = some b → p = q
  | [], _ => fun p hp => absurd hp (List.not_mem_nil p)
  | a :: l, hnd => by
    intro p hp q hq b hfp hfq
    have hmem : ∀ x ∈ l, f x = some b → b ∈ l.filterMap f :=
      fun x hx hfx => List.mem_filterMap.2 ⟨x, hx, hfx⟩
    rcases List.mem_cons.1 hp with rfl | hp' <;> rcases List.mem_cons.1 hq with rfl | hq'
    · rfl
    · rw [List.filterMap_cons, hfp, List.nodup_cons] at hnd
      exact absurd (hmem q hq' hfq) hnd.1
    · rw [List.filterMap_cons, hfq, List.nodup_cons] at hnd
      exact absurd (hmem p hp' hfp) hnd.1
    · have hnd' : (l.filterMap f).Nodup := by
        rw [List.filterMap_cons] at hnd
        cases hfa : f a with
        | none => rw [hfa] at hnd; exact hnd
        | some c => rw [hfa] at hnd; exact (List.nodup_cons.1 hnd).2
      exact eq_of_nodup_filterMap f l hnd' p hp' q hq' b hfp hfq

/-- The loop of `Unmarshal` on a new block, when the keys that parse denote
pairwise distinct integers: no call fails, and the block holds exactly the
decoded bindings under the canonical decimal keys. -/
theorem addDecoded_NewBlock (kvs : List (String × common.Hash))
    (hnd : (kvs.filterMap fun p => SetString p.1).Nodup) :
    ∃ bl' : checkpointBlock M, NewBlock.addDecoded kvs = (bl', none) ∧
      bl'.uIDs = sortStrings ((decodedCalls kvs).map fun p => bigString p.1) ∧
      (∀ s h, bl'.numbers.lookup s = some h ↔
        ∃ k id, (k, h) ∈ kvs ∧ SetString k = some id ∧ bigString id = s) ∧
      bl'.tree = none ∧ bl'.built = false := by
  have hnd' : ((decodedCalls kvs).map Prod.fst).Nodup := by
    rw [decodedCalls_map_fst]; exact hnd
  obtain ⟨a1, a2, a3, a4, a5⟩ := addAll_fresh (M := M) (decodedCalls kvs) NewBlock
    List.sorted_nil hnd' (fun _ _ => Finmap.not_mem_empty)
  refine ⟨_, addDecoded_eq_addAll kvs NewBlock a1, by simpa [NewBlock] using a2, ?_, a4, a5⟩
  intro s h
  rw [a3]
  simp only [NewBlock, Finmap.lookup_empty, reduceCtorEq, or_false]
  constructor
  · rintro ⟨p, hp, hs, hh⟩
    obtain ⟨k, h', hm, hk, hb⟩ := mem_decodedCalls.1 hp
    refine ⟨k, p.1, ?_, hk, hs⟩
    rw [← hh, ← hb, BigToHash_Big]
    exact hm
  · rintro ⟨k, id, hm, hk, hs⟩
    exact ⟨(id, h.Big), mem_decodedCalls.2 ⟨k, h, hm, hk, rfl⟩, hs, BigToHash_Big h⟩

/-- The loop of `Unmarshal` fails when a decoded key parses to an integer
whose decimal string is already a key of the block. -/
theorem addDecoded_fails_of_present : ∀ (kvs : List (String × common.Hash))
    (bl : checkpointBlock M),
    (∃ p ∈ kvs, ∃ id, SetString p.1 = some id ∧ bigString id ∈ bl.numbers) →
    ∃ uid, (bl.addDecoded kvs).2 = some (.failedToAdd (.duplicateCheckpoint uid))
  | [], _ => fun ⟨p, hp, _⟩ => absurd hp (List.not_mem_nil p)
  | (uidStr, checkpoint) :: rest, bl => by
    rintro ⟨p, hp, id, hs, hm⟩
    cases hparse : SetString uidStr with
    | none =>
      rw [(addDecoded_cons_skip bl uidStr checkpoint rest hparse).1]
      rcases List.mem_cons.1 hp with rfl | hp'
      · rw [hparse] at hs; exact absurd hs (by simp)
      · exact addDecoded_fails_of_present rest bl ⟨p, hp', id, hs, hm⟩
    | some id' =>
      by_cases h : bigString id' ∈ bl.numbers
      · rw [(addDecoded_cons_duplicate bl uidStr checkpoint rest id' hparse h).1]
        exact ⟨_, rfl⟩
      · rw [(addDecoded_cons_fresh bl uidStr checkpoint rest id' hparse h).1]
        have hstep := AddCheckpoint_of_not_mem bl id' checkpoint.Big h
        rcases List.mem_cons.1 hp with rfl | hp'
        · rw [hparse] at hs
          rw [Option.some.inj hs] at h
          exact absurd hm h
        · apply addDecoded_fails_of_present rest
          refine ⟨p, hp', id, hs, ?_⟩
          rw [hstep]
          exact Finmap.mem_insert.2 (Or.inr hm)

/-- The loop of `Unmarshal` fails when two decoded keys parse to the same
integer. -/
theorem addDecoded_fails_of_repeated : ∀ (kvs : List (String × common.Hash))
    (bl : checkpointBlock M), ¬ (kvs.filterMap fun p => SetString p.1).Nodup →
    ∃ uid, (bl.addDecoded kvs).2 = some (.failedToAdd (.duplicateCheckpoint uid))
  | [], _ => fun h => absurd List.nodup_nil h
  | (uidStr, checkpoint) :: rest, bl => by
    intro hnd
    cases hparse : SetString uidStr with
    | none =>
      rw [(addDecoded_cons_skip bl uidStr checkpoint rest hparse).1]
      apply addDecoded_fails_of_repeated rest bl
      simpa [List.filterMap_cons, hparse] using hnd
    | some id =>
      by_cases h : bigString id ∈ bl.numbers
      · rw [(addDecoded_cons_duplicate bl uidStr checkpoint rest id hparse h).1]
        exact ⟨_, rfl⟩
      · rw [(addDecoded_cons_fresh bl uidStr checkpoint rest id hparse h).1]
        have hstep := AddCheckpoint_of_not_mem bl id checkpoint.Big h
        simp only [List.filterMap_cons, hparse, List.nodup_cons, not_and] at hnd
        by_cases hmem : id ∈ rest.filterMap fun p => SetString p.1
        · obtain ⟨q, hq, hsq⟩ := List.mem_filterMap.1 hmem
          apply addDecoded_fails_of_present rest
          refine ⟨q, hq, id, hsq, ?_⟩
          rw [hstep]
          exact Finmap.mem_insert.2 (Or.inl rfl)
        · exact addDecoded_fails_of_repeated rest _ (hnd hmem)

theorem RangeOrder.mem_iff {m : Entries} {kvs : List (String × common.Hash)}
    (h : RangeOrder m kvs) (k : String) (v : common.Hash) :
    (k, v) ∈ kvs ↔ m.lookup k = some v := by
  rw [Finmap.lookup_eq_some_iff, ← h, Multiset.mem_coe, List.mem_map]
  constructor
  · intro hm; exact ⟨(k, v), hm, rfl⟩
  · rintro ⟨⟨k', v'⟩, hm, he⟩
    simp only [Sigma.mk.inj_iff, heq_eq_eq] at he
    rw [← he.1, ← he.2]; exact hm

theorem RangeOrder.nodup {m : Entries} {kvs : List (String × common.Hash)}
    (h : RangeOrder m kvs) : (kvs.map Prod.fst).Nodup := by
  have hk : m.entries.keys.Nodup := m.nodupKeys.nodup_keys
  rw [← h, Multiset.coe_keys, Multiset.coe_nodup] at hk
  simpa [List.keys, List.map_map, Function.comp_def] using hk

theorem RangeOrder.mem_keys {m : Entries} {kvs : List (String × common.Hash)}
    (h : RangeOrder m kvs) (k : String) : k ∈ kvs.map Prod.fst ↔ k ∈ m := by
  rw [Finmap.mem_iff, List.mem_map]
  constructor
  · rintro ⟨⟨k', v⟩, hm, rfl⟩; exact ⟨v, (h.mem_iff k' v).1 hm⟩
  · rintro ⟨v, hv⟩; exact ⟨(k, v), (h.mem_iff k v).2 hv, rfl⟩

/-! ## Lexicographic and numeric order -/

theorem digitVal_eq {c : Char} {d : Nat} (h : digitVal c = some d) :
    c.toNat = d + 48 ∧ d ≤ 9 := by
  unfold digitVal at h
  split_ifs at h with hc
  have := Option.some.inj h
  omega

theorem scanDigits_value : ∀ (xs : List Char) (acc r : Nat), scanDigits acc xs = some r →
    ∃ v, scanDigits 0 xs = some v ∧ r = acc * 10 ^ xs.length + v ∧ v < 10 ^ xs.length
  | [], acc, r => by
    intro h
    simp only [scanDigits, Option.some.injEq] at h
    exact ⟨0, rfl, by simp [h], by simp⟩
  | c :: cs, acc, r => by
    intro h
    simp only [scanDigits] at h ⊢
    cases hd : digitVal c with
    | none => simp [hd] at h
    | some d =>
      simp only [hd] at h ⊢
      obtain ⟨v, hv, hr, hlt⟩ := scanDigits_value cs _ _ h
      obtain ⟨w, hw⟩ : ∃ w, scanDigits (0 * 10 + d) cs = some w := by
        cases hx : scanDigits (0 * 10 + d) cs with
        | some w => exact ⟨w, rfl⟩
        | none =>
          exfalso
          have key : ∀ (ys : List Char) (a b : Nat), scanDigits a ys = none →
              scanDigits b ys = none := by
            intro ys
            induction ys with
            | nil => intro a b hn; simp [scanDigits] at hn
            | cons y ys ih =>
              intro a b hn
              simp only [scanDigits] at hn ⊢
              cases hy : digitVal y with
              | none => rfl
              | some e => simp only [hy] at hn ⊢; exact ih _ _ hn
          rw [key cs _ (acc * 10 + d) hx] at h
          exact absurd h (by simp)
      obtain ⟨v', hv', hr', _⟩ := scanDigits_value cs _ _ hw
      rw [hv] at hv'
      have hvv : v = v' := Option.some.inj hv'
      subst hvv
      have hd9 := (digitVal_eq hd).2
      simp only [Nat.zero_mul, Nat.zero_add] at hr'
      refine ⟨w, hw, ?_, ?_⟩
      · rw [hr, hr', List.length_cons, pow_succ]; ring
      · rw [hr', List.length_cons, pow_succ]
        have : d * 10 ^ cs.length ≤ 9 * 10 ^ cs.length := Nat.mul_le_mul_right _ hd9
        omega

/-- On digit strings of the same length the order of `sort.Strings` is the
numeric order. -/
theorem strLt_iff_lt_of_length_eq : ∀ (xs ys : List Char) (a b : Nat),
    xs.length = ys.length → scanDigits 0 xs = some a → scanDigits 0 ys = some b →
    (strLt xs ys = true ↔ a < b)
  | [], [], a, b => by
    intro _ ha hb
    simp only [scanDigits, Option.some.injEq] at ha hb
    simp [strLt, ← ha, ← hb]
  | [], _ :: _, _, _ => by intro h; simp at h
  | _ :: _, [], _, _ => by intro h; simp at h
  | c :: cs, d :: ds, a, b => by
    intro hl ha hb
    simp only [List.length_cons, Nat.succ.injEq, add_left_inj] at hl
    simp only [scanDigits] at ha hb
    cases hc : digitVal c with
    | none => simp [hc] at ha
    | some x =>
      cases hd : digitVal d with
      | none => simp [hd] at hb
      | some y =>
        simp only [hc] at ha
        simp only [hd] at hb
        obtain ⟨v, hv, hav, hvlt⟩ := scanDigits_value cs _ _ ha
        obtain ⟨w, hw, hbw, hwlt⟩ := scanDigits_value ds _ _ hb
        have hx := (digitVal_eq hc).1
        have hy := (digitVal_eq hd).1
        have ih := strLt_iff_lt_of_length_eq cs ds v w hl hv hw
        rw [← hl] at hbw hwlt
        simp only [Nat.zero_mul, Nat.zero_add] at hav hbw
        generalize 10 ^ cs.length = P at *
        simp only [strLt]
        split_ifs with h1 h2
        · have : (x + 1) * P ≤ y * P := Nat.mul_le_mul_right _ (by omega)
          simp only [true_iff]
          rw [hav, hbw]
          have := Nat.add_mul x 1 P
          omega
        · have : (y + 1) * P ≤ x * P := Nat.mul_le_mul_right _ (by omega)
          simp only [Bool.false_eq_true, false_iff, not_lt]
          rw [hav, hbw]
          have := Nat.add_mul y 1 P
          omega
        · have hxy : x = y := by omega
          subst hxy
          rw [ih, hav, hbw]
          omega

theorem bigString_ofNat_data (n : Nat) : (bigString (n : Int)).data = Nat.toDigits 10 n := by
  show (toString (Int.ofNat n)).data = _
  simp [toString, Nat.repr, List.asString]

theorem numLe_bigString (x y : Int) : numLe (bigString x) (bigString y) = decide (x ≤ y) := by
  simp [numLe, SetString_bigString]

/-- For two natural numbers with the same number of decimal digits, the order
of `sort.Strings` on their decimal strings is their numeric order. -/
theorem StrLe_bigString_iff (a b : Nat)
    (hl : (bigString (a : Int)).length = (bigString (b : Int)).length) :
    StrLe (bigString (a : Int)) (bigString (b : Int)) ↔ a ≤ b := by
  unfold StrLe
  simp only [String.length] at hl
  rw [bigString_ofNat_data] at hl ⊢
  rw [bigString_ofNat_data] at hl ⊢
  have ha := scanDigits_toDigitsCore (a + 1) a (Nat.lt_succ_self a)
  have hb := scanDigits_toDigitsCore (b + 1) b (Nat.lt_succ_self b)
  have := strLt_iff_lt_of_length_eq (Nat.toDigits 10 b) (Nat.toDigits 10 a) b a hl.symm hb ha
  rw [← Bool.not_eq_true, this]
  omega

theorem addAll_uIDs_mem : ∀ (l : List (Int × Int)) (bl : checkpointBlock M) (k : String),
    k ∈ (bl.addAll l).1.uIDs → k ∈ bl.uIDs ∨ ∃ p ∈ l, k = bigString p.1
  | [], _, _ => fun h => Or.inl h
  | (uid, number) :: rest, bl, k => by
    intro hk
    simp only [checkpointBlock.addAll] at hk
    rcases addAll_uIDs_mem rest _ k hk with h | ⟨p, hp, rfl⟩
    · by_cases hm : bigString uid ∈ bl.numbers
      · rw [AddCheckpoint_of_mem bl uid number hm] at h
        exact Or.inl h
      · rw [AddCheckpoint_of_not_mem bl uid number hm] at h
        simp only [(sortStrings_perm _).mem_iff, List.mem_append, List.mem_singleton] at h
        rcases h with h | rfl
        · exact Or.inl h
        · exact Or.inr ⟨(uid, number), List.mem_cons_self _ _, rfl⟩
    · exact Or.inr ⟨p, List.mem_cons_of_mem _ hp, rfl⟩

/-! ## The JSON text of a map -/

theorem hexVal_hexDigit (d : Nat) (h : d < 16) : hexVal (hexDigit d) = some d := by
  interval_cases d <;> decide

theorem scanHex_add (n m : Nat) : ∀ (acc : Nat) (cs : List Char),
    scanHex (n + m) acc cs = (scanHex n acc cs).bind fun p => scanHex m p.1 p.2 := by
  induction n with
  | zero => intro acc cs; simp [scanHex]
  | succ n ih =>
    intro acc cs
    rw [Nat.succ_add]
    cases cs with
    | nil => simp [scanHex]
    | cons c cs =>
      simp only [scanHex]
      cases hexVal c with
      | none => rfl
      | some d => exact ih _ _

theorem scanHex_hexFixed (n : Nat) : ∀ (v acc : Nat) (rest : List Char),
    scanHex n acc (hexFixed n v ++ rest) = some (acc * 16 ^ n + v % 16 ^ n, rest) := by
  induction n with
  | zero => intro v acc rest; simp [scanHex, hexFixed, Nat.mod_one]
  | succ n ih =>
    intro v acc rest
    rw [scanHex_add n 1, hexFixed, List.append_assoc, ih]
    simp only [Option.some_bind, List.singleton_append, scanHex,
      hexVal_hexDigit (v % 16) (Nat.mod_lt _ (by decide))]
    congr 2
    rw [pow_succ, Nat.mul_comm (16 ^ n) 16, Nat.mod_mul]
    ring

theorem scanHash_hashText (h : common.Hash) (rest : List Char) :
    scanHash (hashText h ++ '"' :: rest) = some (h, rest) := by
  have hv : h.val % 16 ^ 64 = h.val := Nat.mod_eq_of_lt (by
    have := h.isLt
    norm_num at this ⊢
    exact this)
  simp only [hashText, List.cons_append, scanHash, scanHex_hexFixed, hv]
  simp only [Nat.zero_mul, Nat.zero_add, true_or, and_self, if_true]
  have hq : ('"' : Char).toNat = 34 := by decide
  simp only [hq, if_true]
  congr 2
  apply Fin.ext
  simp only [common.BigToHash, Int.natAbs_ofNat]
  exact Nat.mod_eq_of_lt h.isLt

theorem char_eq_of_toNat {c d : Char} (h : c.toNat = d.toNat) : c = d :=
  Char.ext (UInt32.ext h)

theorem scanString_escape (fuel : Nat) (c e : Char) (tail : List Char) (he : e ≠ 'u')
    (hu : unescape e = some c) :
    scanString (fuel + 1) ('\\' :: e :: tail) =
      (scanString fuel tail).map fun p => (c :: p.1, p.2) := by
  simp [scanString, he, hu]

theorem scanString_u4 (fuel r : Nat) (c : Char) (a b x y : Char) (tail : List Char)
    (hs : scanU4 (a :: b :: x :: y :: tail) = some (r, tail)) (hr : r < 55296)
    (hc : Char.ofNat r = c) :
    scanString (fuel + 1) ('\\' :: 'u' :: a :: b :: x :: y :: tail) =
      (scanString fuel tail).map fun p => (c :: p.1, p.2) := by
  have h4 : ¬ (55296 ≤ r ∧ r < 57344) := by omega
  simp [scanString, hs, h4, hc]

/-- Reading the text written for one character gives the character back. -/
theorem scanString_quoteChar (fuel : Nat) (c : Char) (tail : List Char) :
    scanString (fuel + 1) (quoteChar c ++ tail) =
      (scanString fuel tail).map fun p => (c :: p.1, p.2) := by
  unfold quoteChar
  split_ifs with h1 h2 h3 h4 h5 h6 h7 h8 h9
  · exact scanString_escape fuel c '"' tail (by decide)
      (by rw [char_eq_of_toNat (d := '"') h1]; decide)
  · exact scanString_escape fuel c '\\' tail (by decide)
      (by rw [char_eq_of_toNat (d := '\\') h2]; decide)
  · exact scanString_escape fuel c 'b' tail (by decide)
      (by rw [char_eq_of_toNat (d := Char.ofNat 8) h3]; decide)
  · exact scanString_escape fuel c 'f' tail (by decide)
      (by rw [char_eq_of_toNat (d := Char.ofNat 12) h4]; decide)
  · exact scanString_escape fuel c 'n' tail (by decide)
      (by rw [char_eq_of_toNat (d := Char.ofNat 10) h5]; decide)
  · exact scanString_escape fuel c 'r' tail (by decide)
      (by rw [char_eq_of_toNat (d := Char.ofNat 13) h6]; decide)
  · exact scanString_escape fuel c 't' tail (by decide)
      (by rw [char_eq_of_toNat (d := Char.ofNat 9) h7]; decide)
  · have hlt : c.toNat < 64 := by omega
    refine scanString_u4 fuel c.toNat c _ _ _ _ tail ?_ (by omega) (Char.ofNat_toNat c)
    have z : hexVal '0' = some 0 := by decide
    simp only [scanU4, z, hexVal_hexDigit (c.toNat / 16) (by omega),
      hexVal_hexDigit (c.toNat % 16) (Nat.mod_lt _ (by decide))]
    congr 2
    omega
  · refine scanString_u4 fuel c.toNat c _ _ _ _ tail ?_ (by omega) (Char.ofNat_toNat c)
    have z : hexVal '0' = some 0 := by decide
    have t : hexVal '2' = some 2 := by decide
    simp only [scanU4, z, t, hexVal_hexDigit (c.toNat % 16) (Nat.mod_lt _ (by decide))]
    congr 2
    omega
  · have a1 : ¬ c.toNat < 32 := by omega
    simp [scanString, h1, h2, a1]

theorem quoteString_length (k : List Char) : k.length < (quoteString k).length := by
  induction k with
  | nil => simp [quoteString]
  | cons c cs ih =>
    have : 0 < (quoteChar c).length := by
      unfold quoteChar; split_ifs <;> simp
    simp only [quoteString, List.length_append, List.length_cons]
    omega

/-- Reading the text written for a string gives the string back. -/
theorem scanString_quoteString : ∀ (k : List Char) (fuel : Nat) (rest : List Char),
    k.length < fuel → scanString fuel (quoteString k ++ rest) = some (k, rest)
  | [], fuel, rest => by
    intro h
    obtain ⟨f, rfl⟩ : ∃ f, fuel = f + 1 := ⟨fuel - 1, by omega⟩
    have hq : ('"' : Char).toNat = 34 := by decide
    simp [quoteString, scanString, hq]
  | c :: cs, fuel, rest => by
    intro h
    obtain ⟨f, rfl⟩ : ∃ f, fuel = f + 1 := ⟨fuel - 1, by omega⟩
    rw [quoteString, List.append_assoc, scanString_quoteChar,
      scanString_quoteString cs f rest (by simpa using h)]
    rfl

theorem skipSpace_cons (c : Char) (cs : List Char) (h : isSpace c = false) :
    skipSpace (c :: cs) = c :: cs := by
  simp [skipSpace, h]

/-- The text written for one member, followed by `tail`. -/
theorem scanMembers_member (fuel : Nat) (k : String) (h : common.Hash) (tail : List Char) :
    scanMembers (fuel + 1)
        ('"' :: (quoteString k.data ++ (':' :: '"' :: (hashText h ++ ('"' :: tail))))) =
      match skipSpace tail with
      | [] => none
      | sep :: rest₄ =>
        if sep = '}' then some ([(k, h)], rest₄)
        else if sep = ',' then
          (scanMembers fuel (skipSpace rest₄)).map fun r => ((k, h) :: r.1, r.2)
        else none := by
  have hq : ('"' : Char).toNat = 34 := by decide
  have hlen : k.data.length <
      (quoteString k.data ++ (':' :: '"' :: (hashText h ++ ('"' :: tail)))).length := by
    have := quoteString_length k.data
    simp only [List.length_append, List.length_cons]
    omega
  rw [scanMembers]
  simp only [hq, if_true]
  rw [scanString_quoteString k.data _ _ hlen]
  simp only [skipSpace_cons ':' _ (by decide), skipSpace_cons '"' _ (by decide), if_true, hq,
    scanHash_hashText]

theorem writeMembers_single (k : String) (h : common.Hash) (tail : List Char) :
    writeMembers [(k, h)] ++ tail =
      '"' :: (quoteString k.data ++ (':' :: '"' :: (hashText h ++ ('"' :: tail)))) := by
  simp [writeMembers]

theorem writeMembers_cons (k : String) (h : common.Hash) (p : String × common.Hash)
    (rest : List (String × common.Hash)) (tail : List Char) :
    writeMembers ((k, h) :: p :: rest) ++ tail =
      '"' :: (quoteString k.data ++ (':' :: '"' :: (hashText h ++
        ('"' :: ',' :: (writeMembers (p :: rest) ++ tail))))) := by
  simp [writeMembers]

theorem writeMembers_length : ∀ kvs : List (String × common.Hash),
    kvs.length ≤ (writeMembers kvs).length
  | [] => by simp [writeMembers]
  | [_] => by simp [writeMembers]
  | _ :: p :: rest => by
    have := writeMembers_length (p :: rest)
    simp only [writeMembers, List.length_cons, List.length_append] at this ⊢
    omega

theorem writeMembers_head : ∀ (p : String × common.Hash) (rest : List (String × common.Hash))
    (tail : List Char), ∃ cs, writeMembers (p :: rest) ++ tail = '"' :: cs
  | (k, h), [], tail => ⟨_, writeMembers_single k h tail⟩
  | (k, h), p :: rest, tail => ⟨_, writeMembers_cons k h p rest tail⟩

/-- Reading the members written for a non-empty list of entries gives the
entries back. -/
theorem scanMembers_writeMembers : ∀ (kvs : List (String × common.Hash)) (fuel : Nat)
    (tail : List Char), kvs ≠ [] → kvs.length ≤ fuel →
    scanMembers fuel (writeMembers kvs ++ '}' :: tail) = some (kvs, tail)
  | [], _, _ => fun h _ => absurd rfl h
  | [(k, h)], fuel, tail => by
    intro _ hf
    obtain ⟨f, rfl⟩ : ∃ f, fuel = f + 1 := ⟨fuel - 1, by simp at hf; omega⟩
    rw [writeMembers_single, scanMembers_member, skipSpace_cons '}' _ (by decide)]
    simp
  | (k, h) :: p :: rest, fuel, tail => by
    intro _ hf
    obtain ⟨f, rfl⟩ : ∃ f, fuel = f + 1 := ⟨fuel - 1, by simp at hf; omega⟩
    have ih := scanMembers_writeMembers (p :: rest) f tail (by simp)
      (by simp at hf ⊢; omega)
    obtain ⟨cs, hcs⟩ := writeMembers_head p rest ('}' :: tail)
    have hskip : skipSpace (writeMembers (p :: rest) ++ '}' :: tail) =
        writeMembers (p :: rest) ++ '}' :: tail := by
      rw [hcs]; exact skipSpace_cons '"' _ (by decide)
    have hne : ¬ (',' : Char) = '}' := by decide
    rw [writeMembers_cons, scanMembers_member, skipSpace_cons ',' _ (by decide)]
    simp only [hne, if_false, if_true, hskip, ih, Option.map_some']

/-- Reading the object written for a list of entries gives the map with these
entries. -/
theorem decodeMap_writeMembers (kvs : List (String × common.Hash)) :
    decodeMap ('{' :: (writeMembers kvs ++ ['}'])) =
      some (kvs.foldl (fun m p => m.insert p.1 p.2) ∅) := by
  rw [decodeMap, skipSpace_cons '{' _ (by decide)]
  simp only [if_true]
  cases kvs with
  | nil =>
    have h1 : skipSpace ['}'] = ['}'] := skipSpace_cons '}' _ (by decide)
    simp only [writeMembers, List.nil_append, h1, if_true]
    rfl
  | cons p rest =>
    obtain ⟨cs, hcs⟩ := writeMembers_head p rest ['}']
    have hscan := scanMembers_writeMembers (p :: rest)
      (writeMembers (p :: rest) ++ ['}']).length [] (by simp)
      (by have := writeMembers_length (p :: rest); simp only [List.length_append]; omega)
    rw [hcs] at hscan ⊢
    rw [skipSpace_cons '"' _ (by decide)]
    have hne : ¬ ('"' : Char) = '}' := by decide
    simp only [hne, if_false, hscan]
    simp [skipSpace]

theorem sortedKeys_eq (m : Entries) :
    ∃ l : List String, m.keys.val = (l : Multiset String) ∧ sortedKeys m = sortStrings l := by
  unfold sortedKeys
  induction m.keys.val using Quot.inductionOn with
  | h l => exact ⟨l, rfl, rfl⟩

theorem mem_sortedKeys (m : Entries) (k : String) : k ∈ sortedKeys m ↔ k ∈ m := by
  obtain ⟨l, hl, hs⟩ := sortedKeys_eq m
  rw [hs, (sortStrings_perm l).mem_iff, ← Finmap.mem_keys, ← Finset.mem_val, hl]
  rfl

theorem sortedKeys_nodup (m : Entries) : (sortedKeys m).Nodup := by
  obtain ⟨l, hl, hs⟩ := sortedKeys_eq m
  rw [hs, (sortStrings_perm l).nodup_iff]
  have := m.keys.nodup
  rw [hl] at this
  exact Multiset.coe_nodup.1 this

theorem mem_sortedEntries (m : Entries) (k : String) (v : common.Hash) :
    (k, v) ∈ sortedEntries m ↔ m.lookup k = some v := by
  simp only [sortedEntries, List.mem_filterMap, Option.map_eq_some', Prod.mk.injEq]
  constructor
  · rintro ⟨k', _, v', hv, rfl, rfl⟩
    exact hv
  · intro hv
    exact ⟨k, (mem_sortedKeys m k).2 (Finmap.mem_of_lookup_eq_some hv), v, hv, rfl, rfl⟩

theorem sortedEntries_nodup (m : Entries) : ((sortedEntries m).map Prod.fst).Nodup := by
  have : (sortedEntries m).map Prod.fst =
      (sortedKeys m).filterMap fun k => (m.lookup k).map fun _ => k := by
    simp only [sortedEntries, List.map_filterMap]
    congr 1
    funext k
    cases m.lookup k <;> rfl
  rw [this]
  refine (sortedKeys_nodup m).filterMap ?_
  intro a a' b ha ha'
  simp only [Option.mem_def, Option.map_eq_some'] at ha ha'
  obtain ⟨_, _, rfl⟩ := ha
  obtain ⟨_, _, rfl⟩ := ha'
  rfl

theorem lookup_foldl_insert : ∀ (kvs : List (String × common.Hash)) (m₀ : Entries)
    (k : String) (v : common.Hash), (kvs.map Prod.fst).Nodup →
    ((kvs.foldl (fun m p => m.insert p.1 p.2) m₀).lookup k = some v ↔
      (k, v) ∈ kvs ∨ (k ∉ kvs.map Prod.fst ∧ m₀.lookup k = some v))
  | [], m₀, k, v => by intro _; simp
  | (k', v') :: rest, m₀, k, v => by
    intro hnd
    rw [List.map_cons, List.nodup_cons] at hnd
    rw [List.foldl_cons, lookup_foldl_insert rest _ k v hnd.2]
    simp only [List.mem_cons, Prod.mk.injEq, List.map_cons, not_or]
    by_cases hk : k = k'
    · subst hk
      simp only [Finmap.lookup_insert, Option.some.injEq, true_and, not_true_eq_false,
        false_and, or_false]
      constructor
      · rintro (h | ⟨_, h⟩)
        · exact absurd (List.mem_map_of_mem Prod.fst h) hnd.1
        · exact Or.inl h.symm
      · rintro (h | h)
        · exact Or.inr ⟨hnd.1, h.symm⟩
        · exact Or.inl h
    · rw [Finmap.lookup_insert_of_ne _ hk]
      simp only [hk, false_and, false_or, not_false_eq_true, true_and]

/-- The codec reads back every map it writes. -/
theorem encodingJSON_roundTrips (m : Entries) : encodingJSON.RoundTrips m := by
  refine ⟨_, rfl, ?_⟩
  show jsonUnmarshal _ = _
  unfold jsonUnmarshal
  simp only [List.cons_append]
  rw [decodeMap_writeMembers]
  simp only
  congr 1
  apply Finmap.ext_lookup
  intro k
  apply Option.ext
  intro v
  simp only [Option.mem_def]
  rw [lookup_foldl_insert _ _ _ _ (sortedEntries_nodup m), mem_sortedEntries]
  simp [Finmap.lookup_empty]

/-! ## The claims -/

/-- C1: when the decimal string of `uid` is already a key of the entry mapping,
`AddCheckpoint(uid, number)` returns the duplicate error for every `number`
and leaves the block (entry mapping, key list, tree and built flag) as it was;
when it is not yet a key, the first call succeeds and every later call with
the same `uid` fails and changes nothing. -/
theorem AddCheckpoint_rejects_duplicate (bl : checkpointBlock M) (uid : Int) :
    (bigString uid ∈ bl.numbers → ∀ number,
      bl.AddCheckpoint uid number = (bl, some (.duplicateCheckpoint (bigString uid)))) ∧
    (bigString uid ∉ bl.numbers → ∀ number (numbers : List Int),
      ∃ bl', bl.AddCheckpoint uid number = (bl', none) ∧
        bl'.numbers.lookup (bigString uid) = some (common.BigToHash number) ∧
        bl'.addAll (numbers.map fun n => (uid, n)) =
          (bl', numbers.map fun _ => some (.duplicateCheckpoint (bigString uid)))) := by
  refine ⟨fun h number => AddCheckpoint_of_mem bl uid number h, fun h number numbers => ?_⟩
  refine ⟨_, AddCheckpoint_of_not_mem bl uid number h, Finmap.lookup_insert _, ?_⟩
  exact addAll_duplicates _ uid (by simp) numbers

/-- C4: once `Build` has succeeded, after any further calls the block is still
built, and `Build` returns the zero hash with the already-built error and
leaves the block (tree, entry mapping, key list, built flag) as it is; no call
sets the built flag back to false. -/
theorem Build_only_once (bl bl' : checkpointBlock M) (root : common.Hash)
    (h : bl.Build = some (bl', root, none)) (cs : List Call) :
    (∃ bl'', bl'.calls cs = some bl'' ∧ bl''.built = true ∧
      bl''.Build = some (bl'', 0, some .alreadyBuilt)) ∧
    (∀ (b b₂ : checkpointBlock M) (c : Call),
      b.built = true → b.call c = some b₂ → b₂.built = true) := by
  obtain ⟨_, hb, tree, ht, _⟩ := Build_success h
  obtain ⟨bl'', h1, h2, _⟩ := calls_built cs hb ht
  refine ⟨⟨bl'', h1, h2, by simp [checkpointBlock.Build, h2]⟩, ?_⟩
  intro b b₂ c hb hc
  cases c with
  | AddCheckpoint uid number =>
    simp only [checkpointBlock.call, Option.some.injEq] at hc
    rw [← hc, (AddCheckpoint_tree b uid number).2, hb]
  | Build =>
    simp only [checkpointBlock.call, checkpointBlock.Build, hb, if_true, Option.map_some',
      Option.some.injEq] at hc
    rw [← hc, hb]
  | Unmarshal J order raw =>
    simp only [checkpointBlock.call, Option.some.injEq] at hc
    rw [← hc, (Unmarshal_tree b J order raw).2, hb]
  | Marshal J =>
    simp only [checkpointBlock.call, Option.some.injEq] at hc
    rw [← hc, hb]
  | Hash =>
    simp only [checkpointBlock.call, Option.map_eq_some'] at hc
    obtain ⟨_, _, rfl⟩ := hc
    exact hb
  | CreateProof uid =>
    simp only [checkpointBlock.call, Option.map_eq_some'] at hc
    obtain ⟨_, _, rfl⟩ := hc
    exact hb
  | NumberOfCheckpoints =>
    simp only [checkpointBlock.call, Option.some.injEq] at hc
    rw [← hc, hb]

/-- C6: `Hash` of a block that is not built is the zero hash; and when `Build`
succeeds with root `root`, `Hash` returns `root` right afterwards and after
any further sequence of calls (`AddCheckpoint`, `Unmarshal`, `Marshal`,
`CreateProof`, `Build`, ...), all of which return. -/
theorem Hash_zero_until_built (bl : checkpointBlock M) :
    (bl.built = false → bl.Hash = some 0) ∧
    (∀ bl' root, bl.Build = some (bl', root, none) → ∀ cs : List Call,
      ∃ bl'', bl'.calls cs = some bl'' ∧ bl''.Hash = some root) := by
  refine ⟨fun h => by simp [checkpointBlock.Hash, h], fun bl' root h cs => ?_⟩
  obtain ⟨_, hb, tree, ht, hr⟩ := Build_success h
  obtain ⟨bl'', h1, h2, h3⟩ := calls_built cs hb ht
  exact ⟨bl'', h1, hr ▸ Hash_of_built h2 h3⟩

theorem NumberOfCheckpoints_eq_length {bl : checkpointBlock M} (hw : bl.WellFormed) :
    bl.NumberOfCheckpoints = (bl.uIDs.length : Int) := by
  unfold checkpointBlock.NumberOfCheckpoints
  have : bl.numbers.keys = bl.uIDs.toFinset := by
    ext k
    rw [Finmap.mem_keys, List.mem_toFinset, hw.keys]
  rw [this, List.toFinset_card_of_nodup hw.nodup]

/-- C9: after every sequence of calls on a new block, all of which return,
`NumberOfCheckpoints` is the number of `AddCheckpoint` calls (direct or made by
`Unmarshal`) that returned no error, which is the length of the key list; the
key list has no duplicates and holds exactly the keys of the entry mapping.
On any block a failed `AddCheckpoint`, and `Build`, `Marshal`, `Hash` and
`CreateProof`, leave the count as it is. -/
theorem NumberOfCheckpoints_counts_successes (cs : List Call) :
    (∃ bl : checkpointBlock M, NewBlock.calls cs = some bl ∧
      bl.NumberOfCheckpoints = ((NewBlock : checkpointBlock M).callsSuccesses cs : Int) ∧
      (NewBlock : checkpointBlock M).callsSuccesses cs = bl.uIDs.length ∧
      bl.uIDs.Nodup ∧ ∀ k, k ∈ bl.uIDs ↔ k ∈ bl.numbers) ∧
    (∀ (b : checkpointBlock M) (uid number : Int), (b.AddCheckpoint uid number).2 ≠ none →
      (b.AddCheckpoint uid number).1.NumberOfCheckpoints = b.NumberOfCheckpoints) ∧
    (∀ (b b' : checkpointBlock M) (c : Call), b.call c = some b' →
      (c = .Build ∨ (∃ J, c = .Marshal J) ∨ c = .Hash ∨ ∃ uid, c = .CreateProof uid) →
      b'.NumberOfCheckpoints = b.NumberOfCheckpoints) := by
  refine ⟨?_, ?_, ?_⟩
  · obtain ⟨bl, h, hw, hl⟩ := calls_wellFormed (M := M) cs NewBlock_wellFormed
    refine ⟨bl, h, ?_, ?_, hw.nodup, hw.keys⟩
    · rw [NumberOfCheckpoints_eq_length hw, hl]; simp [NewBlock]
    · rw [hl]; simp [NewBlock]
  · intro b uid number h
    by_cases hm : bigString uid ∈ b.numbers
    · rw [AddCheckpoint_of_mem b uid number hm]
    · exact absurd ((AddCheckpoint_error_iff b uid number).2 hm) h
  · intro b b' c hc hcase
    rcases hcase with rfl | ⟨J, rfl⟩ | rfl | ⟨uid, rfl⟩
    · simp only [checkpointBlock.call, Option.map_eq_some'] at hc
      obtain ⟨⟨b₁, r, e⟩, hb, rfl⟩ := hc
      unfold checkpointBlock.Build at hb
      unfold checkpointBlock.NumberOfCheckpoints
      split_ifs at hb
      · simp only [Option.some.injEq, Prod.mk.injEq] at hb; rw [← hb.1]
      · cases hn : M.NewTree b.numbers Depth257 with
        | error e => simp only [hn, Option.some.injEq, Prod.mk.injEq] at hb; rw [← hb.1]
        | ok t => simp only [hn, Option.some.injEq, Prod.mk.injEq] at hb; rw [← hb.1]
    · simp only [checkpointBlock.call, Option.some.injEq] at hc; rw [← hc]
    · simp only [checkpointBlock.call, Option.map_eq_some'] at hc
      obtain ⟨_, _, rfl⟩ := hc; rfl
    · simp only [checkpointBlock.call, Option.map_eq_some'] at hc
      obtain ⟨_, _, rfl⟩ := hc; rfl

/-- C10: after every sequence of calls on a new block every call has returned,
the key list is sorted in the sense of `sort.StringsAreSorted`, and a call of
`Build` returns: it never takes the branch that locks the mutex again. -/
theorem Build_never_blocks (cs : List Call) :
    ∃ bl : checkpointBlock M, NewBlock.calls cs = some bl ∧
      StringsAreSorted bl.uIDs = true ∧ ∃ r, bl.Build = some r := by
  obtain ⟨bl, h, hw, _⟩ := calls_wellFormed (M := M) cs NewBlock_wellFormed
  obtain ⟨bl', root, err, hb, _⟩ := Build_returns hw
  exact ⟨bl, h, (StringsAreSorted_iff _).2 hw.sorted, _, hb⟩

theorem checkpointBlock.ext' {b₁ b₂ : checkpointBlock M} (h1 : b₁.uIDs = b₂.uIDs)
    (h2 : b₁.numbers = b₂.numbers) (h3 : b₁.tree = b₂.tree) (h4 : b₁.built = b₂.built) :
    b₁ = b₂ := by
  cases b₁; cases b₂; simp only [checkpointBlock.mk.injEq]; exact ⟨h1, h2, h3, h4⟩

/-- C2: for pairs with pairwise distinct uids, adding them to a new block in
one order or in a rearranged order succeeds call by call and gives the same
key list and the same entry mapping, hence the same result of `Build`. -/
theorem Build_independent_of_insertion_order (l l' : List (Int × Int)) (hp : l.Perm l')
    (hd : (l.map Prod.fst).Nodup) :
    ((NewBlock : checkpointBlock M).addAll l).1.uIDs = ((NewBlock : checkpointBlock M).addAll l').1.uIDs ∧
    ((NewBlock : checkpointBlock M).addAll l).1.numbers = ((NewBlock : checkpointBlock M).addAll l').1.numbers ∧
    ((NewBlock : checkpointBlock M).addAll l).1.Build = ((NewBlock : checkpointBlock M).addAll l').1.Build ∧
    (∀ e ∈ ((NewBlock : checkpointBlock M).addAll l).2, e = none) ∧
    (∀ e ∈ ((NewBlock : checkpointBlock M).addAll l').2, e = none) := by
  have hd' : (l'.map Prod.fst).Nodup := (hp.map Prod.fst).nodup_iff.1 hd
  have hfresh : ∀ (l : List (Int × Int)), ∀ p ∈ l,
      bigString p.1 ∉ (NewBlock : checkpointBlock M).numbers :=
    fun _ _ _ => Finmap.not_mem_empty
  obtain ⟨a1, a2, a3, a4, a5⟩ :=
    addAll_fresh (M := M) l NewBlock List.sorted_nil hd (hfresh l)
  obtain ⟨b1, b2, b3, b4, b5⟩ :=
    addAll_fresh (M := M) l' NewBlock List.sorted_nil hd' (hfresh l')
  have hu : ((NewBlock : checkpointBlock M).addAll l).1.uIDs = ((NewBlock : checkpointBlock M).addAll l').1.uIDs := by
    rw [a2, b2]
    exact sortStrings_congr ((hp.map _).append_left _)
  have hn : ((NewBlock : checkpointBlock M).addAll l).1.numbers =
      ((NewBlock : checkpointBlock M).addAll l').1.numbers := by
    apply Finmap.ext_lookup
    intro k
    apply Option.ext
    intro h
    simp only [Option.mem_def]
    rw [a3, b3]
    simp only [hp.mem_iff]
  refine ⟨hu, hn, ?_, a1, b1⟩
  rw [checkpointBlock.ext' hu hn (a4.trans b4.symm) (a5.trans b5.symm)]

/-- C5, as the code has it: on a built block `AddCheckpoint` leaves the tree,
the built flag and `Hash` as they are; with a uid that is already a key it
fails and changes nothing; with a uid that is not yet a key it succeeds and
adds the key to the key list and the binding to the entry mapping. -/
theorem AddCheckpoint_on_built_block (bl : checkpointBlock M) (uid number : Int)
    (hb : bl.built = true) :
    (bl.AddCheckpoint uid number).1.built = true ∧
    (bl.AddCheckpoint uid number).1.tree = bl.tree ∧
    (bl.AddCheckpoint uid number).1.Hash = bl.Hash ∧
    (bigString uid ∈ bl.numbers →
      bl.AddCheckpoint uid number = (bl, some (.duplicateCheckpoint (bigString uid)))) ∧
    (bigString uid ∉ bl.numbers →
      (bl.AddCheckpoint uid number).2 = none ∧
      (bl.AddCheckpoint uid number).1.numbers =
        bl.numbers.insert (bigString uid) (common.BigToHash number) ∧
      (bl.AddCheckpoint uid number).1.uIDs = sortStrings (bl.uIDs ++ [bigString uid])) := by
  obtain ⟨h1, h2⟩ := AddCheckpoint_tree bl uid number
  refine ⟨h2.trans hb, h1, ?_, fun h => AddCheckpoint_of_mem bl uid number h, fun h => ?_⟩
  · simp [checkpointBlock.Hash, h1, h2]
  · rw [AddCheckpoint_of_not_mem bl uid number h]
    exact ⟨rfl, rfl, rfl⟩

theorem addAll_wellFormed : ∀ (l : List (Int × Int)) {bl : checkpointBlock M},
    bl.WellFormed → (∀ k ∈ bl.numbers, ∃ id, bigString id = k) →
    (bl.addAll l).1.WellFormed ∧ (∀ k ∈ (bl.addAll l).1.numbers, ∃ id, bigString id = k) ∧
      (bl.addAll l).1.tree = bl.tree ∧ (bl.addAll l).1.built = bl.built
  | [], _ => fun hw hc => ⟨hw, hc, rfl, rfl⟩
  | (uid, number) :: rest, bl => by
    intro hw hc
    have hw' := AddCheckpoint_wellFormed hw uid number
    have hc' : ∀ k ∈ (bl.AddCheckpoint uid number).1.numbers, ∃ id, bigString id = k := by
      intro k hk
      by_cases h : bigString uid ∈ bl.numbers
      · rw [AddCheckpoint_of_mem bl uid number h] at hk; exact hc k hk
      · rw [AddCheckpoint_of_not_mem bl uid number h] at hk
        rcases Finmap.mem_insert.1 hk with rfl | hk
        · exact ⟨uid, rfl⟩
        · exact hc k hk
    obtain ⟨h1, h2, h3, h4⟩ := addAll_wellFormed rest hw' hc'
    obtain ⟨h5, h6⟩ := AddCheckpoint_tree bl uid number
    exact ⟨h1, h2, h3.trans h5, h4.trans h6⟩

theorem filterMap_isSome_eq {α β : Type} (f : α → Option β) (l : List α) :
    (l.filter fun p => (f p).isSome).filterMap f = l.filterMap f := by
  induction l with
  | nil => rfl
  | cons a l ih =>
    cases h : f a with
    | none => simp [List.filter_cons, List.filterMap_cons, h, ih]
    | some b => simp [List.filter_cons, List.filterMap_cons, h, ih]

theorem addDecoded_filter : ∀ (kvs : List (String × common.Hash)) (bl : checkpointBlock M),
    bl.addDecoded kvs = bl.addDecoded (kvs.filter fun p => (SetString p.1).isSome)
  | [], _ => rfl
  | (uidStr, checkpoint) :: rest, bl => by
    cases hp : SetString uidStr with
    | none =>
      rw [(addDecoded_cons_skip bl uidStr checkpoint rest hp).1, List.filter_cons]
      simp only [hp, Option.isSome_none, Bool.false_eq_true, if_false]
      exact addDecoded_filter rest bl
    | some id =>
      rw [List.filter_cons]
      simp only [hp, Option.isSome_some, if_true]
      by_cases h : bigString id ∈ bl.numbers
      · rw [(addDecoded_cons_duplicate bl uidStr checkpoint rest id hp h).1,
          (addDecoded_cons_duplicate bl uidStr checkpoint _ id hp h).1]
      · rw [(addDecoded_cons_fresh bl uidStr checkpoint rest id hp h).1,
          (addDecoded_cons_fresh bl uidStr checkpoint _ id hp h).1]
        exact addDecoded_filter rest _

/-- C7: let the bytes decode to the map `m`, visited by `range` in any order.
Keys that do not parse as a base-10 integer are skipped: `Unmarshal` does what
it does on the entries whose keys parse.  If the keys that parse denote
pairwise distinct integers, `Unmarshal` into a new block succeeds and the entry
mapping is exactly the decoded values under the canonical decimal strings of
the parsed keys.  If two keys parse to the same integer, or a parsed key is
already in the block, `Unmarshal` returns the duplicate error. -/
theorem Unmarshal_of_decoded_map (J : JSON) (order : Entries → List (String × common.Hash))
    (raw : String) (m : Entries) (hdec : J.Unmarshal raw = .ok m)
    (hord : RangeOrder m (order m)) :
    (∀ bl : checkpointBlock M, bl.Unmarshal J order raw =
      bl.addDecoded ((order m).filter fun p => (SetString p.1).isSome)) ∧
    ((∀ k₁ k₂ id, k₁ ∈ m → k₂ ∈ m → SetString k₁ = some id → SetString k₂ = some id →
        k₁ = k₂) →
      ∃ bl' : checkpointBlock M, NewBlock.Unmarshal J order raw = (bl', none) ∧
        ∀ s h, bl'.numbers.lookup s = some h ↔
          ∃ k id, m.lookup k = some h ∧ SetString k = some id ∧ bigString id = s) ∧
    (∀ bl : checkpointBlock M,
      ((∃ k₁ k₂ id, k₁ ≠ k₂ ∧ k₁ ∈ m ∧ k₂ ∈ m ∧ SetString k₁ = some id ∧
          SetString k₂ = some id) ∨
        (∃ k id, k ∈ m ∧ SetString k = some id ∧ bigString id ∈ bl.numbers)) →
      ∃ uid, (bl.Unmarshal J order raw).2 =
        some (.failedToAdd (.duplicateCheckpoint uid))) := by
  refine ⟨fun bl => ?_, fun hinj => ?_, fun bl hdup => ?_⟩
  · rw [(Unmarshal_of_ok bl J order raw m hdec).1]
    exact addDecoded_filter _ bl
  · have hnd : ((order m).filterMap fun p => SetString p.1).Nodup := by
      refine nodup_filterMap_of_inj _ Prod.fst _ hord.nodup ?_
      intro p hp q hq id h1 h2
      exact hinj p.1 q.1 id ((hord.mem_keys _).1 (List.mem_map_of_mem _ hp))
        ((hord.mem_keys _).1 (List.mem_map_of_mem _ hq)) h1 h2
    obtain ⟨bl', h1, _, h3, _⟩ := addDecoded_NewBlock (M := M) (order m) hnd
    refine ⟨bl', by rw [(Unmarshal_of_ok _ J order raw m hdec).1, h1], fun s h => ?_⟩
    rw [h3]
    simp only [hord.mem_iff]
  · rw [(Unmarshal_of_ok bl J order raw m hdec).1]
    rcases hdup with ⟨k₁, k₂, id, hne, hm₁, hm₂, hs₁, hs₂⟩ | ⟨k, id, hm, hs, hin⟩
    · apply addDecoded_fails_of_repeated
      intro hnd
      obtain ⟨v₁, hv₁⟩ := Finmap.mem_iff.1 hm₁
      obtain ⟨v₂, hv₂⟩ := Finmap.mem_iff.1 hm₂
      have := eq_of_nodup_filterMap _ _ hnd (k₁, v₁) ((hord.mem_iff _ _).2 hv₁)
        (k₂, v₂) ((hord.mem_iff _ _).2 hv₂) id hs₁ hs₂
      exact hne (congrArg Prod.fst this)
    · apply addDecoded_fails_of_present
      obtain ⟨v, hv⟩ := Finmap.mem_iff.1 hm
      exact ⟨(k, v), (hord.mem_iff _ _).2 hv, id, hs, hin⟩

/-- For a block obtained from a new block by `AddCheckpoint` calls and any codec
that reads back the entry mapping of the block: `Marshal` succeeds, and
`Unmarshal` of its bytes into a new block restores the entry mapping and the
key list, in whatever order `range` visits the decoded map. -/
theorem round_trip_of_codec (J : JSON) (l : List (Int × Int))
    (hJ : J.RoundTrips ((NewBlock : checkpointBlock M).addAll l).1.numbers) :
    ∃ raw, ((NewBlock : checkpointBlock M).addAll l).1.Marshal J = .ok raw ∧
      ∀ order : Entries → List (String × common.Hash),
        RangeOrder ((NewBlock : checkpointBlock M).addAll l).1.numbers
          (order ((NewBlock : checkpointBlock M).addAll l).1.numbers) →
        ∃ bl' : checkpointBlock M, NewBlock.Unmarshal J order raw = (bl', none) ∧
          bl'.numbers = ((NewBlock : checkpointBlock M).addAll l).1.numbers ∧
          bl'.uIDs = ((NewBlock : checkpointBlock M).addAll l).1.uIDs ∧
          bl'.Build = ((NewBlock : checkpointBlock M).addAll l).1.Build := by
  obtain ⟨hw, hc, ht, hb⟩ := addAll_wellFormed (M := M) l NewBlock_wellFormed
    (fun k hk => absurd hk Finmap.not_mem_empty)
  generalize ((NewBlock : checkpointBlock M).addAll l).1 = bl at *
  obtain ⟨raw, hm, hu⟩ := hJ
  refine ⟨raw, by simp [checkpointBlock.Marshal, hm], fun order hord => ?_⟩
  have hcanon : ∀ p ∈ order bl.numbers, ∀ id, SetString p.1 = some id → bigString id = p.1 := by
    intro p hp id hs
    obtain ⟨j, hj⟩ := hc p.1 ((hord.mem_keys _).1 (List.mem_map_of_mem _ hp))
    rw [← hj, SetString_bigString] at hs
    rw [← Option.some.inj hs, hj]
  have hparse : ∀ p ∈ order bl.numbers, SetString p.1 = some ((SetString p.1).getD 0) ∧
      bigString ((SetString p.1).getD 0) = p.1 := by
    intro p hp
    obtain ⟨j, hj⟩ := hc p.1 ((hord.mem_keys _).1 (List.mem_map_of_mem _ hp))
    rw [← hj, SetString_bigString]
    exact ⟨rfl, rfl⟩
  have hnd : ((order bl.numbers).filterMap fun p => SetString p.1).Nodup := by
    refine nodup_filterMap_of_inj _ Prod.fst _ hord.nodup ?_
    intro p hp q hq id h1 h2
    rw [← hcanon p hp id h1, ← hcanon q hq id h2]
  obtain ⟨bl', h1, h2, h3, h4, h5⟩ := addDecoded_NewBlock (M := M) (order bl.numbers) hnd
  have hkeys : (decodedCalls (order bl.numbers)).map (fun p => bigString p.1) =
      (order bl.numbers).map Prod.fst := by
    have : ∀ kvs : List (String × common.Hash),
        (∀ p ∈ kvs, SetString p.1 = some ((SetString p.1).getD 0) ∧
          bigString ((SetString p.1).getD 0) = p.1) →
        (decodedCalls kvs).map (fun p => bigString p.1) = kvs.map Prod.fst := by
      intro kvs
      induction kvs with
      | nil => intro _; rfl
      | cons a rest ih =>
        intro hall
        obtain ⟨k, v⟩ := a
        obtain ⟨e1, e2⟩ := hall (k, v) (List.mem_cons_self _ _)
        rw [decodedCalls_cons_parse k v rest _ e1, List.map_cons, List.map_cons,
          ih fun p hp => hall p (List.mem_cons_of_mem _ hp)]
        simp only at e2
        rw [e2]
    exact this _ hparse
  have hnum : bl'.numbers = bl.numbers := by
    apply Finmap.ext_lookup
    intro s
    apply Option.ext
    intro h
    simp only [Option.mem_def]
    rw [h3, ← hord.mem_iff]
    constructor
    · rintro ⟨k, id, hm, hs, rfl⟩
      have := hcanon (k, h) hm id hs
      simp only at this
      rw [this]; exact hm
    · intro hm
      exact ⟨s, _, hm, (hparse (s, h) hm).1, (hparse (s, h) hm).2⟩
  have huid : bl'.uIDs = bl.uIDs := by
    rw [h2, hkeys]
    symm
    apply sortStrings_unique _ hw.sorted
    refine (List.perm_ext_iff_of_nodup hw.nodup hord.nodup).2 fun k => ?_
    rw [hw.keys, hord.mem_keys]
  refine ⟨bl', ?_, hnum, huid, ?_⟩
  · rw [(Unmarshal_of_ok _ J order raw bl.numbers hu).1, h1]
  · rw [checkpointBlock.ext' huid hnum (h4.trans (ht.trans rfl).symm) (h5.trans (hb.trans rfl).symm)]

/-- C3: for a block obtained from a new block by `AddCheckpoint` calls,
`Marshal` succeeds, and `Unmarshal` of its bytes into a new block succeeds, in
whatever order `range` visits the decoded map, and gives a block with the same
entry mapping and the same key list, on which `Build` returns what it returns
on the original block. -/
theorem Unmarshal_Marshal_round_trip (l : List (Int × Int)) :
    ∃ raw, ((NewBlock : checkpointBlock M).addAll l).1.Marshal encodingJSON = .ok raw ∧
      ∀ order : Entries → List (String × common.Hash),
        RangeOrder ((NewBlock : checkpointBlock M).addAll l).1.numbers
          (order ((NewBlock : checkpointBlock M).addAll l).1.numbers) →
        ∃ bl' : checkpointBlock M, NewBlock.Unmarshal encodingJSON order raw = (bl', none) ∧
          bl'.numbers = ((NewBlock : checkpointBlock M).addAll l).1.numbers ∧
          bl'.uIDs = ((NewBlock : checkpointBlock M).addAll l).1.uIDs ∧
          bl'.Build = ((NewBlock : checkpointBlock M).addAll l).1.Build :=
  round_trip_of_codec encodingJSON l (encodingJSON_roundTrips _)

/-- C8, as the code has it: after any sequence of `AddCheckpoint` calls on a
new block the key list is in ascending order of `sort.Strings`, the
lexicographic order of the decimal strings; when the ids are non-negative and
all have the same number of decimal digits, this is the ascending numeric
order of the ids. -/
theorem uIDs_sorted_as_strings (l : List (Int × Int)) :
    ((NewBlock : checkpointBlock M).addAll l).1.uIDs.Sorted StrLe ∧
    ((∀ p ∈ l, 0 ≤ p.1) →
      (∀ p ∈ l, ∀ q ∈ l, (bigString p.1).length = (bigString q.1).length) →
      ((NewBlock : checkpointBlock M).addAll l).1.uIDs.Pairwise fun a b => numLe a b = true) := by
  obtain ⟨hw, _⟩ := addAll_wellFormed (M := M) l NewBlock_wellFormed
    (fun k hk => absurd hk Finmap.not_mem_empty)
  refine ⟨hw.sorted, fun hpos hlen => ?_⟩
  refine List.Pairwise.imp_of_mem ?_ hw.sorted
  intro a b ha hb hab
  have hfrom : ∀ k ∈ ((NewBlock : checkpointBlock M).addAll l).1.uIDs,
      ∃ p ∈ l, k = bigString p.1 := by
    intro k hk
    rcases addAll_uIDs_mem l NewBlock k hk with h | h
    · simp [NewBlock] at h
    · exact h
  obtain ⟨p, hp, rfl⟩ := hfrom a ha
  obtain ⟨q, hq, rfl⟩ := hfrom b hb
  obtain ⟨x, hx⟩ := Int.eq_ofNat_of_zero_le (hpos p hp)
  obtain ⟨y, hy⟩ := Int.eq_ofNat_of_zero_le (hpos q hq)
  have hl := hlen p hp q hq
  rw [hx, hy] at hl hab ⊢
  rw [numLe_bigString, decide_eq_true_iff]
  exact_mod_cast (StrLe_bigString_iff x y hl).1 hab

/-! ## Concrete executions -/

theorem AddCheckpoint_rejects_duplicate_witness :
    (bigString 1 ∈ ((NewBlock : checkpointBlock sampleMerkle).AddCheckpoint 1 5).1.numbers ∧
      ∀ number, ((NewBlock : checkpointBlock sampleMerkle).AddCheckpoint 1 5).1.AddCheckpoint 1
        number = (((NewBlock : checkpointBlock sampleMerkle).AddCheckpoint 1 5).1,
          some (.duplicateCheckpoint (bigString 1)))) ∧
    (bigString 1 ∉ (NewBlock : checkpointBlock sampleMerkle).numbers ∧
      ∀ number (numbers : List Int), ∃ bl',
        (NewBlock : checkpointBlock sampleMerkle).AddCheckpoint 1 number = (bl', none) ∧
        bl'.numbers.lookup (bigString 1) = some (common.BigToHash number) ∧
        bl'.addAll (numbers.map fun n => (1, n)) =
          (bl', numbers.map fun _ => some (.duplicateCheckpoint (bigString 1)))) :=
  ⟨⟨by decide, (AddCheckpoint_rejects_duplicate _ 1).1 (by decide)⟩,
    ⟨by decide, (AddCheckpoint_rejects_duplicate _ 1).2 (by decide)⟩⟩

theorem Build_independent_of_insertion_order_witness :
    ([(1, 5), (2, 7)] : List (Int × Int)).Perm [(2, 7), (1, 5)] ∧
    (([(1, 5), (2, 7)] : List (Int × Int)).map Prod.fst).Nodup ∧
    ((NewBlock : checkpointBlock sampleMerkle).addAll [(1, 5), (2, 7)]).1.Build =
      ((NewBlock : checkpointBlock sampleMerkle).addAll [(2, 7), (1, 5)]).1.Build :=
  ⟨by decide, by decide,
    (Build_independent_of_insertion_order [(1, 5), (2, 7)] [(2, 7), (1, 5)]
      (by decide) (by decide)).2.2.1⟩

set_option maxRecDepth 100000 in
theorem Unmarshal_Marshal_round_trip_witness :
    ((NewBlock : checkpointBlock sampleMerkle).addAll [(1, 5), (-2, 7)]).1.Marshal encodingJSON =
      .ok sampleText ∧
    RangeOrder ((NewBlock : checkpointBlock sampleMerkle).addAll [(1, 5), (-2, 7)]).1.numbers
      [("-2", 7), ("1", 5)] ∧
    ∃ raw, ((NewBlock : checkpointBlock sampleMerkle).addAll [(1, 5), (-2, 7)]).1.Marshal
        encodingJSON = .ok raw ∧
      ∃ bl' : checkpointBlock sampleMerkle,
        NewBlock.Unmarshal encodingJSON (fun _ => [("-2", 7), ("1", 5)]) raw = (bl', none) ∧
        bl'.numbers =
          ((NewBlock : checkpointBlock sampleMerkle).addAll [(1, 5), (-2, 7)]).1.numbers ∧
        bl'.uIDs = ((NewBlock : checkpointBlock sampleMerkle).addAll [(1, 5), (-2, 7)]).1.uIDs ∧
        bl'.Build =
          ((NewBlock : checkpointBlock sampleMerkle).addAll [(1, 5), (-2, 7)]).1.Build := by
  obtain ⟨raw, h1, h2⟩ :=
    Unmarshal_Marshal_round_trip (M := sampleMerkle) [(1, 5), (-2, 7)]
  exact ⟨rfl, rfl, raw, h1, h2 (fun _ => [("-2", 7), ("1", 5)]) rfl⟩

theorem Build_only_once_witness :
    (NewBlock : checkpointBlock sampleMerkle).Build = some (sampleBuilt, 0, none) ∧
    ∃ bl'', sampleBuilt.calls [.AddCheckpoint 1 5, .Build, .Hash] = some bl'' ∧
      bl''.built = true ∧ bl''.Build = some (bl'', 0, some .alreadyBuilt) :=
  ⟨rfl, (Build_only_once NewBlock sampleBuilt 0 rfl [.AddCheckpoint 1 5, .Build, .Hash]).1⟩

theorem AddCheckpoint_on_built_block_witness :
    sampleBuilt.built = true ∧
    (sampleBuilt.AddCheckpoint 1 5).1.Hash = sampleBuilt.Hash ∧
    (bigString 1 ∉ sampleBuilt.numbers ∧ (sampleBuilt.AddCheckpoint 1 5).2 = none) :=
  ⟨rfl, (AddCheckpoint_on_built_block sampleBuilt 1 5 rfl).2.2.1,
    by decide, ((AddCheckpoint_on_built_block sampleBuilt 1 5 rfl).2.2.2.2 (by decide)).1⟩

/-- C5 fails on the code: on the block that `Build` has built from a new
block, `AddCheckpoint(1, 5)` returns no error and adds the key `"1"` to the
key list and to the entry mapping. -/
theorem AddCheckpoint_after_Build_succeeds :
    (NewBlock : checkpointBlock sampleMerkle).Build = some (sampleBuilt, 0, none) ∧
    sampleBuilt.built = true ∧
    (sampleBuilt.AddCheckpoint 1 5).2 = none ∧
    sampleBuilt.numbers.lookup "1" = none ∧
    (sampleBuilt.AddCheckpoint 1 5).1.numbers.lookup "1" = some 5 ∧
    sampleBuilt.uIDs = [] ∧
    (sampleBuilt.AddCheckpoint 1 5).1.uIDs = ["1"] :=
  ⟨rfl, rfl, by decide, by decide, by decide, rfl, by decide⟩

theorem Hash_zero_until_built_witness :
    ((NewBlock : checkpointBlock sampleMerkle).built = false ∧
      (NewBlock : checkpointBlock sampleMerkle).Hash = some 0) ∧
    ((NewBlock : checkpointBlock sampleMerkle).Build = some (sampleBuilt, 0, none) ∧
      ∃ bl'', sampleBuilt.calls [.AddCheckpoint 1 5, .Build, .CreateProof 1] = some bl'' ∧
        bl''.Hash = some 0) :=
  ⟨⟨rfl, (Hash_zero_until_built NewBlock).1 rfl⟩,
    ⟨rfl, (Hash_zero_until_built NewBlock).2 sampleBuilt 0 rfl _⟩⟩

theorem sampleTextSkip_keys (k : String)
    (hk : k ∈ (Finmap.insert "x" 7 (Finmap.insert "01" 5 ∅) : Entries)) :
    k = "x" ∨ k = "01" := by
  simpa [Finmap.mem_insert, Finmap.not_mem_empty] using hk

set_option maxRecDepth 100000 in
theorem Unmarshal_of_decoded_map_witness :
    (encodingJSON.Unmarshal sampleTextSkip = .ok (Finmap.insert "x" 7 (Finmap.insert "01" 5 ∅)) ∧
      RangeOrder (Finmap.insert "x" 7 (Finmap.insert "01" 5 ∅)) [("x", 7), ("01", 5)] ∧
      (∀ k₁ k₂ id, k₁ ∈ (Finmap.insert "x" 7 (Finmap.insert "01" 5 ∅) : Entries) →
        k₂ ∈ (Finmap.insert "x" 7 (Finmap.insert "01" 5 ∅) : Entries) →
        SetString k₁ = some id → SetString k₂ = some id → k₁ = k₂) ∧
      ∃ bl' : checkpointBlock sampleMerkle,
        NewBlock.Unmarshal encodingJSON (fun _ => [("x", 7), ("01", 5)]) sampleTextSkip =
          (bl', none) ∧
        ∀ s h, bl'.numbers.lookup s = some h ↔
          ∃ k id, (Finmap.insert "x" 7 (Finmap.insert "01" 5 ∅) : Entries).lookup k = some h ∧
            SetString k = some id ∧ bigString id = s) ∧
    (encodingJSON.Unmarshal sampleTextRepeat =
        .ok (Finmap.insert "1" 7 (Finmap.insert "01" 5 ∅)) ∧
      RangeOrder (Finmap.insert "1" 7 (Finmap.insert "01" 5 ∅)) [("1", 7), ("01", 5)] ∧
      ∃ uid, ((NewBlock : checkpointBlock sampleMerkle).Unmarshal encodingJSON
        (fun _ => [("1", 7), ("01", 5)]) sampleTextRepeat).2 =
          some (.failedToAdd (.duplicateCheckpoint uid))) := by
  have hinj : ∀ k₁ k₂ id, k₁ ∈ (Finmap.insert "x" 7 (Finmap.insert "01" 5 ∅) : Entries) →
      k₂ ∈ (Finmap.insert "x" 7 (Finmap.insert "01" 5 ∅) : Entries) →
      SetString k₁ = some id → SetString k₂ = some id → k₁ = k₂ := by
    intro k₁ k₂ id h₁ h₂ s₁ s₂
    have hx : SetString "x" = none := by decide
    rcases sampleTextSkip_keys k₁ h₁ with rfl | rfl
    · rw [hx] at s₁; exact absurd s₁ (by simp)
    · rcases sampleTextSkip_keys k₂ h₂ with rfl | rfl
      · rw [hx] at s₂; exact absurd s₂ (by simp)
      · rfl
  exact ⟨⟨rfl, rfl, hinj,
      (Unmarshal_of_decoded_map (M := sampleMerkle) encodingJSON (fun _ => [("x", 7), ("01", 5)])
        sampleTextSkip _ rfl rfl).2.1 hinj⟩,
    ⟨rfl, rfl,
      (Unmarshal_of_decoded_map (M := sampleMerkle) encodingJSON (fun _ => [("1", 7), ("01", 5)])
        sampleTextRepeat _ rfl rfl).2.2 NewBlock
        (Or.inl ⟨"1", "01", 1, by decide, by decide, by decide, by decide, by decide⟩)⟩⟩

theorem uIDs_sorted_as_strings_witness :
    (∀ p ∈ ([(11, 1), (10, 2)] : List (Int × Int)), 0 ≤ p.1) ∧
    (∀ p ∈ ([(11, 1), (10, 2)] : List (Int × Int)), ∀ q ∈ ([(11, 1), (10, 2)] : List (Int × Int)),
      (bigString p.1).length = (bigString q.1).length) ∧
    ((NewBlock : checkpointBlock sampleMerkle).addAll [(11, 1), (10, 2)]).1.uIDs.Pairwise
      fun a b => numLe a b = true :=
  ⟨by decide, by decide,
    (uIDs_sorted_as_strings (M := sampleMerkle) [(11, 1), (10, 2)]).2 (by decide) (by decide)⟩

/-- C8 fails on the code: after `AddCheckpoint(9, 1)` and `AddCheckpoint(10, 2)`
on a new block the key list is `["10", "9"]`, which is sorted as strings and
is not in ascending numeric order. -/
theorem uIDs_not_in_numeric_order :
    (∀ p ∈ ([(9, 1), (10, 2)] : List (Int × Int)), 0 ≤ p.1) ∧
    (∀ e ∈ ((NewBlock : checkpointBlock sampleMerkle).addAll [(9, 1), (10, 2)]).2, e = none) ∧
    ((NewBlock : checkpointBlock sampleMerkle).addAll [(9, 1), (10, 2)]).1.uIDs = ["10", "9"] ∧
    StringsAreSorted ((NewBlock : checkpointBlock sampleMerkle).addAll [(9, 1), (10, 2)]).1.uIDs =
      true ∧
    ¬ ((NewBlock : checkpointBlock sampleMerkle).addAll [(9, 1), (10, 2)]).1.uIDs.Pairwise
      fun a b => numLe a b = true :=
  ⟨by decide, by decide, by decide, by decide, by decide⟩

theorem NumberOfCheckpoints_counts_successes_witness :
    (∃ bl : checkpointBlock sampleMerkle,
      NewBlock.calls [.AddCheckpoint 1 5, .AddCheckpoint 1 6, .Build] = some bl ∧
      bl.NumberOfCheckpoints = 1) ∧
    ((((NewBlock : checkpointBlock sampleMerkle).AddCheckpoint 1 5).1.AddCheckpoint 1 6).2 ≠ none ∧
      (((NewBlock : checkpointBlock sampleMerkle).AddCheckpoint 1 5).1.AddCheckpoint 1
        6).1.NumberOfCheckpoints =
        ((NewBlock : checkpointBlock sampleMerkle).AddCheckpoint 1 5).1.NumberOfCheckpoints) ∧
    ((NewBlock : checkpointBlock sampleMerkle).call .Build = some sampleBuilt ∧
      sampleBuilt.NumberOfCheckpoints =
        (NewBlock : checkpointBlock sampleMerkle).NumberOfCheckpoints) := by
  refine ⟨?_, ⟨by decide, ?_⟩, ⟨rfl, ?_⟩⟩
  · obtain ⟨bl, h1, h2, _⟩ := (NumberOfCheckpoints_counts_successes (M := sampleMerkle)
      [.AddCheckpoint 1 5, .AddCheckpoint 1 6, .Build]).1
    exact ⟨bl, h1, h2.trans (by decide)⟩
  · exact (NumberOfCheckpoints_counts_successes (M := sampleMerkle) []).2.1 _ 1 6 (by decide)
  · exact (NumberOfCheckpoints_counts_successes (M := sampleMerkle) []).2.2 _ _ .Build rfl
      (Or.inl rfl)

end checkpoints
